import Mathlib

/-!
# Workday Excel → iCal converter: a verified shallow embedding

This file embeds the schedule-expansion and calendar-serialization engine of
`src/App.jsx` (field parsers, recurrence expander, occurrence builder and
calendar serializer) as executable Lean definitions, and proves or refutes
the specification's claims about them.

Modelling conventions:
* Cell values, column names, patterns and documents are `List Char`
  (JavaScript strings restricted to the Unicode code points Lean's `Char`
  carries; the repository's inputs are ASCII).
* A calendar date is its day ordinal: the number of days since 1970-01-01
  (the value `Date.getTime() / 86400000` of a local-midnight JS `Date`).
  Civil (year, month, day) components are recovered with the standard
  Gregorian conversion `civilFromDays` / `daysFromCivil`, including the JS
  `Date` constructor's rule that an integer year 0–99 means 1900+year.
* `new Date(string)`, the browser's free-form date interpretation, is kept
  abstract as a parameter `oracle : List Char → Option (Int × Int × Int)`
  returning the parsed value's local (getFullYear, getMonth, getDate) triple,
  `none` for an invalid date; every theorem holds for every oracle.
* JS regexes of the source are translated as explicit scanners; each
  scanner's faithfulness (greediness, word boundaries, first-match-only
  `String.replace`) is argued where it is defined.
-/

set_option maxRecDepth 40000

namespace WorkdayICS

/-- Shorthand: the character list of a string literal. -/
def strL (s : String) : List Char := s.toList

/-- JS `\s` / `String.prototype.trim` whitespace, restricted to the ASCII
whitespace characters (space, tab, line feed, vertical tab, form feed,
carriage return). -/
def jsWhitespace (c : Char) : Bool :=
  c = ' ' || c = '\t' || c = '\n' || c = '\x0b' || c = '\x0c' || c = '\r'

/-- JS `String.prototype.trim`: strip leading and trailing whitespace. -/
def jsTrim (cs : List Char) : List Char :=
  ((cs.dropWhile jsWhitespace).reverse.dropWhile jsWhitespace).reverse

/-- JS word character (`\w` of a regex, as used by the `\b` boundary):
ASCII letter, digit or underscore. -/
def jsWordChar (c : Char) : Bool :=
  ('A' ≤ c && c ≤ 'Z') || ('a' ≤ c && c ≤ 'z') || ('0' ≤ c && c ≤ '9') || c = '_'

/-- `String.prototype.toUpperCase`, on the ASCII letters the inputs use
(Lean's `Char.toUpper` maps exactly a–z to A–Z). -/
def upperL (cs : List Char) : List Char := cs.map Char.toUpper

/-! ## The weekday-pattern parser (`parseDays`, App.jsx lines 402–464) -/

/-- One replacement regex of `parseDays`'s normalization table.  Every
pattern of the table has the shape `\b? LITERAL S? \b?`: an optional word
boundary, a literal, an optional (greedy) trailing `S`, an optional word
boundary.  -/
structure RPat where
  lb : Bool
  lit : List Char
  optS : Bool
  rb : Bool

/-- Does pattern `p` match at the start of `cs`, whose preceding character
(if any) is `prev`?  Returns the matched length.

Faithfulness of the boundary and greediness handling: every literal of the
table starts and ends with a word character, so `\b` before the literal
holds iff `prev` is absent or not a word character, and `\b` after the
match holds iff the next character is absent or not a word character.
`S?` is greedy: if an `S` follows the literal it is consumed; when the
pattern also ends in `\b` and the boundary fails after the `S`, the regex
engine backtracks to the shorter alternative, whose boundary check then
sits before the `S` — a word character — and necessarily fails too, so no
match is the correct result. -/
def patMatchLen (p : RPat) (prev : Option Char) (cs : List Char) : Option Nat :=
  if p.lb && (match prev with | some c => jsWordChar c | none => false) then none
  else if p.lit.isPrefixOf cs then
    let rest := cs.drop p.lit.length
    let okAfter : List Char → Bool := fun r =>
      match r.head? with | none => true | some c => !jsWordChar c
    if p.optS then
      match rest with
      | 'S' :: r2 =>
        if p.rb then (if okAfter r2 then some (p.lit.length + 1) else none)
        else some (p.lit.length + 1)
      | _ =>
        if p.rb then (if okAfter rest then some p.lit.length else none)
        else some p.lit.length
    else
      if p.rb then (if okAfter rest then some p.lit.length else none)
      else some p.lit.length
  else none

/-- JS `String.prototype.replace` with a non-global regex: replace only the
leftmost match (the replacement tokens of the table contain no `$`, so the
replacement text is literal). -/
def replaceFirstAux (p : RPat) (tok : List Char) (prev : Option Char) :
    List Char → List Char
  | [] => []
  | c :: rest =>
    match patMatchLen p prev (c :: rest) with
    | some n => tok ++ (c :: rest).drop n
    | none => c :: replaceFirstAux p tok (some c) rest

/-- Replace the leftmost match of `p` in `cs` by `tok`. -/
def replaceFirst (p : RPat) (tok : List Char) (cs : List Char) : List Char :=
  replaceFirstAux p tok none cs

/-- The normalization table of `parseDays`, in source order:
`[/THURSDAYS?/, "R"], [/THURS?\b/, "R"], [/THU\b/, "R"], [/\bTH\b/, "R"],
[/TUESDAYS?/, "TU"], [/TUES?\b/, "TU"], [/\bTUE\b/, "TU"], [/\bTU\b/, "TU"],
[/MONDAYS?/, "MO"], [/\bMON\b/, "MO"], [/\bMO\b/, "MO"], …` -/
def repList : List (RPat × List Char) :=
  [ (⟨false, strL "THURSDAY", true, false⟩, strL "R"),
    (⟨false, strL "THUR", true, true⟩, strL "R"),
    (⟨false, strL "THU", false, true⟩, strL "R"),
    (⟨true, strL "TH", false, true⟩, strL "R"),
    (⟨false, strL "TUESDAY", true, false⟩, strL "TU"),
    (⟨false, strL "TUE", true, true⟩, strL "TU"),
    (⟨true, strL "TUE", false, true⟩, strL "TU"),
    (⟨true, strL "TU", false, true⟩, strL "TU"),
    (⟨false, strL "MONDAY", true, false⟩, strL "MO"),
    (⟨true, strL "MON", false, true⟩, strL "MO"),
    (⟨true, strL "MO", false, true⟩, strL "MO"),
    (⟨false, strL "WEDNESDAY", true, false⟩, strL "WE"),
    (⟨true, strL "WED", false, true⟩, strL "WE"),
    (⟨true, strL "WE", false, true⟩, strL "WE"),
    (⟨false, strL "FRIDAY", true, false⟩, strL "FR"),
    (⟨true, strL "FRI", false, true⟩, strL "FR"),
    (⟨true, strL "FR", false, true⟩, strL "FR"),
    (⟨false, strL "SATURDAY", true, false⟩, strL "SA"),
    (⟨true, strL "SAT", false, true⟩, strL "SA"),
    (⟨true, strL "SA", false, true⟩, strL "SA"),
    (⟨false, strL "SUNDAY", true, false⟩, strL "SU"),
    (⟨true, strL "SUN", false, true⟩, strL "SU"),
    (⟨true, strL "SU", false, true⟩, strL "SU") ]

/-- A separator of `parseDays`: `[,&/\\|]`. -/
def isSep (c : Char) : Bool :=
  c = ',' || c = '&' || c = '/' || c = '\\' || c = '|'

/-- `s.replace(/[,&/\\|]+/g, " ")`: every maximal run of separators becomes
one space.  The flag records whether the previous character was part of a
separator run (so only the run's first character emits the space). -/
def sepToSpaceAux (prevSep : Bool) : List Char → List Char
  | [] => []
  | c :: rest =>
    if isSep c then (if prevSep then [] else [' ']) ++ sepToSpaceAux true rest
    else c :: sepToSpaceAux false rest

/-- `s.replace(/[,&/\\|]+/g, " ")`. -/
def sepToSpace (cs : List Char) : List Char := sepToSpaceAux false cs

/-- `s.replace(/\s+/g, " ")`: every maximal run of whitespace becomes one
space. -/
def collapseWsAux (prevWs : Bool) : List Char → List Char
  | [] => []
  | c :: rest =>
    if jsWhitespace c then (if prevWs then [] else [' ']) ++ collapseWsAux true rest
    else c :: collapseWsAux false rest

/-- `s.replace(/\s+/g, " ")`. -/
def collapseWs (cs : List Char) : List Char := collapseWsAux false cs

/-- Split on a separator character (JS `String.prototype.split` with a
one-character separator). -/
def splitOnChar (sep : Char) : List Char → List (List Char)
  | [] => [[]]
  | c :: rest =>
    if c = sep then [] :: splitOnChar sep rest
    else
      match splitOnChar sep rest with
      | [] => [[c]]
      | l :: ls => (c :: l) :: ls

/-- The compact-form scanner of `parseDays` (the no-space branch): a manual
left-to-right scan with two-character lookahead.  `T` immediately followed
by `U` consumes both as Tuesday; `S` followed by `A`/`U` consumes both as
Saturday/Sunday; `R`, `M`, `W`, `F` consume one character; anything else —
including a `T` not followed by `U` and an `H` — is skipped. -/
def scanCompact : List Char → Finset (List Char) → Finset (List Char)
  | 'T' :: 'U' :: rest, acc => scanCompact rest (insert (strL "TU") acc)
  | 'S' :: 'A' :: rest, acc => scanCompact rest (insert (strL "SA") acc)
  | 'S' :: 'U' :: rest, acc => scanCompact rest (insert (strL "SU") acc)
  | c :: rest, acc =>
    if c = 'R' then scanCompact rest (insert (strL "R") acc)
    else if c = 'M' then scanCompact rest (insert (strL "MO") acc)
    else if c = 'W' then scanCompact rest (insert (strL "WE") acc)
    else if c = 'F' then scanCompact rest (insert (strL "FR") acc)
    else scanCompact rest acc
  | [], acc => acc

/-- The token remap of the space-separated branch: `M`→`MO`, `T`→`TU`,
`W`→`WE`, `TH`→`R`, `F`→`FR` (`R` stays `R`); the source's sequential
reassignments never chain because no rule's output equals a later rule's
input. -/
def remapTok (t : List Char) : List Char :=
  if t = strL "M" then strL "MO"
  else if t = strL "T" then strL "TU"
  else if t = strL "W" then strL "WE"
  else if t = strL "TH" then strL "R"
  else if t = strL "F" then strL "FR"
  else t

/-- The final token → weekday-number table (`Sunday = 0 … Saturday = 6`);
unrecognized tokens are dropped. -/
def dayNum (t : List Char) : Option Nat :=
  if t = strL "MO" then some 1
  else if t = strL "TU" then some 2
  else if t = strL "WE" then some 3
  else if t = strL "R" then some 4
  else if t = strL "FR" then some 5
  else if t = strL "SA" then some 6
  else if t = strL "SU" then some 0
  else none

/-- `parseDays` (App.jsx 402–464): trim and uppercase, normalize weekday
names via the first-match replacement table, turn separators into spaces
and collapse whitespace, then either scan a concatenated compact form or
split on spaces and remap each token; finally map tokens to weekday
numbers. -/
def parseDays (input : List Char) : Finset Nat :=
  if input = [] then ∅
  else
    let s0 := jsTrim input
    if s0 = [] then ∅
    else
      let s1 := upperL s0
      let s2 := repList.foldl (fun acc pt => replaceFirst pt.1 pt.2 acc) s1
      let s3 := jsTrim (collapseWs (sepToSpace s2))
      let tokens : Finset (List Char) :=
        if ¬ s3.contains ' ' then scanCompact s3 ∅
        else
          (splitOnChar ' ' s3).foldl
            (fun acc t =>
              let t' := jsTrim t
              if t' = [] then acc else insert (remapTok t') acc) ∅
      tokens.biUnion (fun t => (dayNum t).toFinset)

/-! ## The time parser (`parseTime`, App.jsx 377–400) -/

/-- A digit of the regexes' `\d`: an ASCII decimal digit. -/
def isDigitC (c : Char) : Bool := 48 ≤ c.toNat && c.toNat ≤ 57

/-- The numeric value of a digit character. -/
def digitVal (c : Char) : Nat := c.toNat - 48

/-- The meridiem suffix captured by `(AM|PM)?`. -/
inductive Mer where
  | AM : Mer
  | PM : Mer
deriving DecidableEq, Repr

/-- A parsed time `{ h, min, sec }`. -/
structure Time where
  h : Nat
  min : Nat
  sec : Nat
deriving DecidableEq, Repr

/-- The 12-hour correction of `parseTime`:
`if (ampm === "AM") { if (h === 12) h = 0; } else if (ampm === "PM") { if (h < 12) h += 12; }`;
no meridiem leaves the hour untouched. -/
def applyMeridiem (ampm : Option Mer) (h : Nat) : Nat :=
  match ampm with
  | some .AM => if h = 12 then 0 else h
  | some .PM => if h < 12 then h + 12 else h
  | none => h

/-- An optional `(?::(\d{2}))?` group: consume `:DD` when present.  The
group is greedy; skipping a present group never helps, because everything
that may follow it (`:`, whitespace, `A`/`P`, end of input) cannot consume
the `:` the group would have consumed, so the greedy choice is exact. -/
def optColon2 (cs : List Char) : Option Nat × List Char :=
  match cs with
  | ':' :: a :: b :: rest =>
    if isDigitC a && isDigitC b then (some (10 * digitVal a + digitVal b), rest)
    else (none, cs)
  | _ => (none, cs)

/-- The tail of pattern A after the hour digits:
`(?::(\d{2}))?(?::(\d{2}))?\s*(AM|PM)?$`. -/
def matchARest (h : Nat) (cs : List Char) : Option (Nat × Nat × Nat × Option Mer) :=
  let r1 := optColon2 cs
  let r2 := optColon2 r1.2
  match r2.2.dropWhile jsWhitespace with
  | ['A', 'M'] => some (h, (r1.1).getD 0, (r2.1).getD 0, some .AM)
  | ['P', 'M'] => some (h, (r1.1).getD 0, (r2.1).getD 0, some .PM)
  | [] => some (h, (r1.1).getD 0, (r2.1).getD 0, none)
  | _ => none

/-- Pattern A of `parseTime`: `^(\d{1,2})(?::(\d{2}))?(?::(\d{2}))?\s*(AM|PM)?$`.
The greedy two-digit hour is tried first and the one-digit alternative on
backtracking, exactly as the regex engine does. -/
def matchA (cs : List Char) : Option (Nat × Nat × Nat × Option Mer) :=
  match cs with
  | c1 :: c2 :: rest =>
    if isDigitC c1 && isDigitC c2 then
      (matchARest (10 * digitVal c1 + digitVal c2) rest) <|>
        (matchARest (digitVal c1) (c2 :: rest))
    else if isDigitC c1 then matchARest (digitVal c1) (c2 :: rest)
    else none
  | [c1] => if isDigitC c1 then matchARest (digitVal c1) [] else none
  | [] => none

/-- The tail of pattern B after the hour digits: `:(\d{2})(?::(\d{2}))?$`. -/
def matchBRest (h : Nat) (cs : List Char) : Option Time :=
  match cs with
  | ':' :: a :: b :: rest =>
    if isDigitC a && isDigitC b then
      let mi := 10 * digitVal a + digitVal b
      match rest with
      | [] => some ⟨h, mi, 0⟩
      | [':', c, d] =>
        if isDigitC c && isDigitC d then some ⟨h, mi, 10 * digitVal c + digitVal d⟩
        else none
      | _ => none
    else none
  | _ => none

/-- Pattern B of `parseTime`: `^(\d{1,2}):(\d{2})(?::(\d{2}))?$` (checked
only when pattern A fails; two-digit hour first, then backtrack to one). -/
def matchB (cs : List Char) : Option Time :=
  match cs with
  | c1 :: c2 :: rest =>
    if isDigitC c1 && isDigitC c2 then
      (matchBRest (10 * digitVal c1 + digitVal c2) rest) <|>
        (matchBRest (digitVal c1) (c2 :: rest))
    else if isDigitC c1 then matchBRest (digitVal c1) (c2 :: rest)
    else none
  | _ => none

/-- `parseTime` (App.jsx 377–400): trim and uppercase; try pattern A with
the 12-hour correction, then pattern B (plain 24-hour); seconds default
to 0. -/
def parseTime (input : List Char) : Option Time :=
  if input = [] then none
  else
    let s := jsTrim input
    if s = [] then none
    else
      let su := upperL s
      match matchA su with
      | some (h, mi, se, mer) => some ⟨applyMeridiem mer h, mi, se⟩
      | none => matchB su

/-! ## Calendar dates (JS `Date` at day granularity)

A `Date` truncated to local midnight is represented by its day ordinal
(days since 1970-01-01).  `civilFromDays`/`daysFromCivil` are the standard
Gregorian conversions between the ordinal and the local (year, month 1–12,
day) components, and `mkDate` is the `new Date(year, monthIndex, day)`
constructor: the legacy rule mapping an integer year 0–99 to 1900 + year,
floor-normalization of the month index, and day-of-month overflow. -/

/-- Civil (year, month 1–12, day) of a day ordinal (days since 1970-01-01):
the Gregorian calendar computed with Euclidean (= floor, the divisors being
positive) division. -/
def civilFromDays (z : Int) : Int × Int × Int :=
  let zz := z + 719468
  let era := zz.ediv 146097
  let doe := zz.emod 146097
  let yoe := (doe - doe.ediv 1460 + doe.ediv 36524 - doe.ediv 146096).ediv 365
  let y := yoe + era * 400
  let doy := doe - (365 * yoe + yoe.ediv 4 - yoe.ediv 100)
  let mp := (5 * doy + 2).ediv 153
  let d := doy - (153 * mp + 2).ediv 5 + 1
  let m := mp + (if mp < 10 then 3 else -9)
  (y + (if m ≤ 2 then 1 else 0), m, d)

/-- Day ordinal of a civil date; `d` may lie outside 1–28/31 (a day-of-month
overflow moves into neighbouring months, as the JS `Date` constructor
normalizes it). -/
def daysFromCivil (y m d : Int) : Int :=
  let y' := y - (if m ≤ 2 then 1 else 0)
  let era := y'.ediv 400
  let yoe := y' - era * 400
  let doy := (153 * (m + (if m > 2 then -3 else 9)) + 2).ediv 5 + d - 1
  let doe := yoe * 365 + yoe.ediv 4 - yoe.ediv 100 + doy
  era * 146097 + doe - 719468

/-- `new Date(y, m, d)` at day granularity (`m` is the 0-based month
index): the year argument 0–99 means 1900 + year (ECMA-262's legacy rule
for the multi-argument constructor), the month index is floor-normalized
into the year, and the day of month may overflow. -/
def mkDate (y m d : Int) : Int :=
  let y0 := if 0 ≤ y ∧ y ≤ 99 then y + 1900 else y
  daysFromCivil (y0 + m.ediv 12) (m.emod 12 + 1) d

/-- `new Date(d.getFullYear(), d.getMonth(), d.getDate())` applied to a
local-midnight `Date`: take the date apart into components and rebuild it
through the constructor.  The identity for civil years outside 0–99; a year
0–99 is shifted by +1900. -/
def normalizeDate (d : Int) : Int :=
  let c := civilFromDays d
  mkDate c.1 (c.2.1 - 1) c.2.2

/-- `Date.prototype.getDay` of a day ordinal: 0 = Sunday … 6 = Saturday
(1970-01-01, ordinal 0, was a Thursday). -/
def weekday (n : Int) : Nat := ((n + 4).emod 7).toNat

/-- The strict 8-digit fallback of `parseDate`:
`^(\d{4})[-\/]?(\d{2})[-\/]?(\d{2})$`.  The separators are optional
literals; each alternative is forced (a digit can never take a separator's
place), so the scan is deterministic. -/
def matchYmd (cs : List Char) : Option (Int × Int × Int) :=
  match cs with
  | a :: b :: c :: d :: rest =>
    if isDigitC a && isDigitC b && isDigitC c && isDigitC d then
      let y : Int := ((digitVal a * 10 + digitVal b) * 10 + digitVal c) * 10 + digitVal d
      let rest1 := match rest with
        | '-' :: r => r
        | '/' :: r => r
        | r => r
      match rest1 with
      | e :: f :: rest2 =>
        if isDigitC e && isDigitC f then
          let mo : Int := digitVal e * 10 + digitVal f
          let rest3 := match rest2 with
            | '-' :: r => r
            | '/' :: r => r
            | r => r
          match rest3 with
          | [g, h] =>
            if isDigitC g && isDigitC h then
              some (y, mo, (digitVal g * 10 + digitVal h : Nat))
            else none
          | _ => none
        else none
      | _ => none
    else none
  | _ => none

/-- `parseDate` (App.jsx 360–375) on a text cell.  `oracle` stands for the
browser's `new Date(string)` interpretation: the parsed instant's local
(getFullYear, getMonth, getDate) triple, or `none` when the result is
`NaN`.  On success the components are rebuilt into a local-midnight date
through the constructor; otherwise the strict 8-digit pattern is tried,
also through the constructor (`new Date(y, mo-1, d)`). -/
def parseDate (oracle : List Char → Option (Int × Int × Int)) (input : List Char) :
    Option Int :=
  if input = [] then none
  else
    let s := jsTrim input
    if s = [] then none
    else
      match oracle s with
      | some c => some (mkDate c.1 c.2.1 c.2.2)
      | none =>
        match matchYmd s with
        | some (y, mo, d) => some (mkDate y (mo - 1) d)
        | none => none

/-! ## The recurrence expander (`expandOccurrences`, App.jsx 466–476) -/

/-- `expandOccurrences`: rebuild both endpoints through the `Date`
constructor (the source's truncation step), then walk one day at a time
from the start to the end inclusive, emitting every day whose weekday is
in the set.  The walk `while (d <= end) ... d.setDate(d.getDate()+1)` is
rendered as a filter over the ordinal range. -/
def expandOccurrences (startDate endDate : Int) (daySet : Finset Nat) : List Int :=
  let d0 := normalizeDate startDate
  let e := normalizeDate endDate
  (List.range (e + 1 - d0).toNat).filterMap
    (fun i : Nat =>
      let d := d0 + (i : Int)
      if weekday d ∈ daySet then some d else none)

/-! ## Local date-times (`combineDateTime`, `icsDateTimeLocal`) -/

/-- The observable local components of a JS `Date`: its local-midnight day
ordinal plus a normalized time of day. -/
structure DateTime where
  ord : Int
  h : Nat
  mi : Nat
  s : Nat
deriving DecidableEq, Repr

/-- `combineDateTime` (App.jsx 478–481): `new Date(y, m, d, t.h, t.min,
t.sec)` for the date's components — the constructor rebuilds the date part
(`mkDate`, including the year 0–99 rule) and folds out-of-range time
fields into whole days, the time of day being taken modulo 86400 seconds
(the fields `parseTime` produces are non-negative). -/
def combineDateTime (date : Int) (t : Time) : DateTime :=
  let total := (t.h * 60 + t.min) * 60 + t.sec
  let tod := total % 86400
  { ord := normalizeDate date + (total / 86400 : Nat)
    h := tod / 3600
    mi := tod % 3600 / 60
    s := tod % 60 }

/-- Decimal digits with explicit fuel (structural recursion, so that the
kernel can evaluate it; `natDigits` supplies enough fuel). -/
def natDigitsAux (fuel : Nat) (n : Nat) : List Char :=
  match fuel with
  | 0 => []
  | fuel + 1 =>
    if n < 10 then [Nat.digitChar n]
    else natDigitsAux fuel (n / 10) ++ [Nat.digitChar (n % 10)]

/-- JS `String(n)` for a non-negative integer: its decimal digits. -/
def natDigits (n : Nat) : List Char := natDigitsAux (n + 1) n

/-- JS `String(n)` for an integer. -/
def intStr (n : Int) : List Char :=
  if n < 0 then '-' :: natDigits (-n).toNat else natDigits n.toNat

/-- `String(n).padStart(2, "0")`. -/
def pad2 (cs : List Char) : List Char :=
  if cs.length < 2 then '0' :: cs else cs

/-- `icsDateTimeLocal` (App.jsx 483–494): `YYYYMMDDTHHMMSS` from the local
components (no zone suffix; `getMonth() + 1` is the 1-based month). -/
def icsDateTimeLocal (dt : DateTime) : List Char :=
  let c := civilFromDays dt.ord
  intStr c.1 ++ pad2 (intStr c.2.1) ++ pad2 (intStr c.2.2) ++ ['T'] ++
    pad2 (natDigits dt.h) ++ pad2 (natDigits dt.mi) ++ pad2 (natDigits dt.s)

/-! ## Text escaping and line folding (`icsEscape`, `foldLines`) -/

/-- The first stage of `icsEscape`: `.replace(/\\/g, "\\\\")`. -/
def escStage1 (c : Char) : List Char :=
  if c = '\\' then ['\\', '\\'] else [c]

/-- The second stage: `.replace(/\n/g, "\\n")` (a newline becomes the
two-character sequence backslash–n). -/
def escStage2 (c : Char) : List Char :=
  if c = '\n' then ['\\', 'n'] else [c]

/-- The third stage: `.replace(/[,;]/g, m => "\\" + m)`. -/
def escStage3 (c : Char) : List Char :=
  if c = ',' ∨ c = ';' then ['\\', c] else [c]

/-- `icsEscape` (App.jsx 510–515): backslash doubled first, then newline to
`\n`, then comma and semicolon backslash-prefixed, each stage a global
character replacement over the previous stage's output. -/
def icsEscape (s : List Char) : List Char :=
  ((s.bind escStage1).bind escStage2).bind escStage3

/-- The three stages fused into one character map (what the composition
amounts to, proved below as `icsEscape_eq_bind`). -/
def escChar (c : Char) : List Char :=
  if c = '\\' then ['\\', '\\']
  else if c = '\n' then ['\\', 'n']
  else if c = ',' ∨ c = ';' then ['\\', c]
  else [c]

/-- Modelled from the spec: the inverse of §4.4's escaping rule
(un-escaping is not in the source; the spec's round-trip property defines
it as the rule's inverse).  `\n` becomes a newline and any other
backslash-escaped character stands for itself. -/
def icsUnescape : List Char → List Char
  | [] => []
  | ['\\'] => ['\\']
  | '\\' :: c :: rest => (if c = 'n' then '\n' else c) :: icsUnescape rest
  | c :: rest => c :: icsUnescape rest

/-- Split a text into lines at `\n` (JS `text.split("\n")`). -/
def splitNl : List Char → List (List Char)
  | [] => [[]]
  | c :: rest =>
    if c = '\n' then [] :: splitNl rest
    else
      match splitNl rest with
      | [] => [[c]]
      | l :: ls => (c :: l) :: ls

/-- Join lines with `\n` (JS `out.join("\n")`). -/
def joinNl (ls : List (List Char)) : List Char :=
  match ls with
  | [] => []
  | [l] => l
  | l :: ls => l ++ '\n' :: joinNl ls

/-- The folding loop's chunking with explicit fuel (structural recursion,
so that the kernel can evaluate it; `chunks75` supplies enough fuel, and
the fuel-insensitivity lemma below recovers the natural equation). -/
def chunks75Aux (fuel : Nat) (cs : List Char) : List (List Char) :=
  match fuel with
  | 0 => [cs]
  | fuel + 1 =>
    if cs.length ≤ 75 then [cs]
    else cs.take 75 :: chunks75Aux fuel (cs.drop 75)

/-- The 75-character chunks of the folding loop: `ln.slice(i, i+75)` for
`i = 0, 75, 150, …` (the whole line when it is at most 75 characters
long). -/
def chunks75 (cs : List Char) : List (List Char) := chunks75Aux cs.length cs

/-- Fold one logical line (the body of `foldLines`' loop): the first chunk
bare, every later chunk prefixed with one space. -/
def foldLine (ln : List Char) : List (List Char) :=
  match chunks75 ln with
  | [] => []
  | c :: rest => c :: rest.map (fun x => ' ' :: x)

/-- `foldLines` (App.jsx 517–531): split into logical lines, fold each,
join all physical lines with `\n`. -/
def foldLines (text : List Char) : List Char :=
  joinNl ((splitNl text).map foldLine).join

/-- Re-join physical lines per the spec's folding round-trip: keep the
first line, strip exactly one leading character (the continuation space)
from every later line, and concatenate. -/
def rejoinFolded (ps : List (List Char)) : List Char :=
  match ps with
  | [] => []
  | h :: t => h ++ (t.map (fun l => l.drop 1)).join

/-- The RFC-5545 unfolding operation: delete every newline-followed-by-
space pair (the sequences folding inserts). -/
def unfoldIcs : List Char → List Char
  | '\n' :: ' ' :: rest => unfoldIcs rest
  | c :: rest => c :: unfoldIcs rest
  | [] => []

/-! ## The calendar serializer (`buildICS`, App.jsx 533–558)

The two effectful ingredients are kept as parameters: `uids i` stands for
the `Math.random().toString(36).slice(2) + "@gisttools.local"` identifier
generated for the i-th event, and `stamp` for `icsDateTimeUTC(now)`, the
run's common generation timestamp. -/

/-- One serialized event. -/
structure Event where
  summary : List Char
  location : List Char
  description : List Char
  dtStart : DateTime
  dtEnd : DateTime
deriving DecidableEq, Repr

/-- The logical text of one `VEVENT` block, before folding (the string the
source passes to `foldLines`). -/
def eventBlock (uid stamp : List Char) (ev : Event) : List Char :=
  strL "BEGIN:VEVENT" ++ '\n' ::
  (strL "UID:" ++ uid) ++ '\n' ::
  (strL "DTSTAMP:" ++ stamp) ++ '\n' ::
  (strL "DTSTART:" ++ icsDateTimeLocal ev.dtStart) ++ '\n' ::
  (strL "DTEND:" ++ icsDateTimeLocal ev.dtEnd) ++ '\n' ::
  ((if ev.summary = [] then [] else strL "SUMMARY:" ++ icsEscape ev.summary ++ ['\n']) ++
   (if ev.location = [] then [] else strL "LOCATION:" ++ icsEscape ev.location ++ ['\n']) ++
   (if ev.description = [] then [] else strL "DESCRIPTION:" ++ icsEscape ev.description ++ ['\n']) ++
   strL "END:VEVENT")

/-- `buildICS`: the fixed header, the optional escaped calendar-name and
timezone-hint lines (emitted only if non-empty, not folded), then each
event block folded and terminated by a newline, and the closing tag. -/
def buildICS (events : List Event) (calName tzHint : List Char)
    (uids : Nat → List Char) (stamp : List Char) : List Char :=
  strL "BEGIN:VCALENDAR" ++ '\n' ::
  strL "VERSION:2.0" ++ '\n' ::
  strL "CALSCALE:GREGORIAN" ++ '\n' ::
  strL "PRODID:-//GistTools//Workday Excel to iCal//EN" ++ '\n' ::
  ((if calName = [] then [] else strL "X-WR-CALNAME:" ++ icsEscape calName ++ ['\n']) ++
   (if tzHint = [] then [] else strL "X-WR-TIMEZONE:" ++ icsEscape tzHint ++ ['\n']) ++
   (events.enum.map (fun iev => foldLines (eventBlock (uids iev.1) stamp iev.2) ++ ['\n'])).join ++
   (strL "END:VCALENDAR" ++ ['\n']))

/-- The logical lines of one event block (what `eventBlock` joins with
newlines). -/
def eventLines (uid stamp : List Char) (ev : Event) : List (List Char) :=
  [strL "BEGIN:VEVENT",
   strL "UID:" ++ uid,
   strL "DTSTAMP:" ++ stamp,
   strL "DTSTART:" ++ icsDateTimeLocal ev.dtStart,
   strL "DTEND:" ++ icsDateTimeLocal ev.dtEnd] ++
  (if ev.summary = [] then [] else [strL "SUMMARY:" ++ icsEscape ev.summary]) ++
  (if ev.location = [] then [] else [strL "LOCATION:" ++ icsEscape ev.location]) ++
  (if ev.description = [] then [] else [strL "DESCRIPTION:" ++ icsEscape ev.description]) ++
  [strL "END:VEVENT"]

/-- The intended logical line sequence of the whole document: header lines,
the optional name/timezone lines, every event's property lines in order,
the closing tag, and the empty line after the final newline. -/
def icsExpectedLines (events : List Event) (calName tzHint : List Char)
    (uids : Nat → List Char) (stamp : List Char) : List (List Char) :=
  [strL "BEGIN:VCALENDAR", strL "VERSION:2.0", strL "CALSCALE:GREGORIAN",
   strL "PRODID:-//GistTools//Workday Excel to iCal//EN"] ++
  (if calName = [] then [] else [strL "X-WR-CALNAME:" ++ icsEscape calName]) ++
  (if tzHint = [] then [] else [strL "X-WR-TIMEZONE:" ++ icsEscape tzHint]) ++
  (events.enum.map (fun iev => eventLines (uids iev.1) stamp iev.2)).join ++
  [strL "END:VCALENDAR", []]

/-! ## The conversion engine (`handleGenerate`, App.jsx 136–195)

A `Row` is a record: column name → cell text (a missing column reads as
the empty string, exactly as `String(row[col] ?? "")` and the falsiness
tests treat `undefined`).  The `Mapping` holds the column name chosen for
each logical role, the empty string meaning "not mapped" (`!mapped[k]`). -/

/-- A source row. -/
def Row : Type := List Char → List Char

/-- The column mapping (App.jsx `mapped`). -/
structure Mapping where
  titleField : List Char := []
  courseField : List Char := []
  componentField : List Char := []
  sectionField : List Char := []
  startDateField : List Char := []
  endDateField : List Char := []
  startTimeField : List Char := []
  endTimeField : List Char := []
  daysField : List Char := []
  locationField : List Char := []
  descField : List Char := []

/-- ECMA-262 GetSubstitution for a *string* search value (no capture
groups), as `String.prototype.replaceAll` applies it to each match:
scanning the replacement text, a doubled dollar yields one dollar;
dollar-ampersand yields the matched text (the pattern itself, the search
value being a literal string); dollar followed by the backquote character
(code 96) yields the part of the original subject before the match;
dollar followed by the quote character (code 39) yields the part after
the match; any other dollar — including the digit and `<` forms, which
with zero captures and no named groups the spec keeps literally — stands
for itself, scanning resuming at the next character.  The two quote-like
characters are written by code point only to keep them out of the
source text. -/
def getSubstitution (pat before after : List Char) : List Char → List Char
  | [] => []
  | c :: r =>
    if c = '$' then
      match r with
      | [] => ['$']
      | d :: r2 =>
        if d = '$' then '$' :: getSubstitution pat before after r2
        else if d = '&' then pat ++ getSubstitution pat before after r2
        else if d = Char.ofNat 96 then before ++ getSubstitution pat before after r2
        else if d = Char.ofNat 39 then after ++ getSubstitution pat before after r2
        else '$' :: getSubstitution pat before after (d :: r2)
    else c :: getSubstitution pat before after r

/-- JS `template.replaceAll(pat, rep)` for a string pattern: replace every
non-overlapping occurrence left to right by `GetSubstitution` of the
replacement text (the inserted text is never re-scanned for further
matches).  `before` accumulates the already-consumed part of the original
subject, so that at each match the dollar-backquote/dollar-quote forms see
the original text before the match position and after the matched part,
exactly as the spec's GetSubstitution receives them. -/
def replaceAllAux (fuel : Nat) (pat rep before : List Char) : List Char → List Char
  | [] => []
  | c :: rest =>
    match fuel with
    | 0 => c :: rest
    | fuel + 1 =>
      if pat ≠ [] ∧ pat.isPrefixOf (c :: rest) then
        getSubstitution pat before ((c :: rest).drop pat.length) rep ++
          replaceAllAux fuel pat rep (before ++ pat) ((c :: rest).drop pat.length)
      else c :: replaceAllAux fuel pat rep (before ++ [c]) rest

/-- JS `template.replaceAll(pat, rep)` (with the fuel `replaceAllAux` needs:
every step consumes at least one input character). -/
def replaceAllL (pat rep cs : List Char) : List Char :=
  replaceAllAux cs.length pat rep [] cs

/-- The title resolution of `handleGenerate` (App.jsx 159–170): the mapped
title column's trimmed text when one is chosen, otherwise the template
with `{Course}`, `{Component}`, `{Section}` replaced in that order by the
trimmed mapped cells, whitespace collapsed and trimmed; an empty result
falls back to `"Class"`. -/
def resolveTitle (m : Mapping) (titleTemplate : List Char) (row : Row) : List Char :=
  let summary :=
    if m.titleField ≠ [] then jsTrim (row m.titleField)
    else
      jsTrim (collapseWs
        (replaceAllL (strL "{Section}") (jsTrim (row m.sectionField))
          (replaceAllL (strL "{Component}") (jsTrim (row m.componentField))
            (replaceAllL (strL "{Course}") (jsTrim (row m.courseField)) titleTemplate))))
  if summary = [] then strL "Class" else summary

/-- The per-row `try` block of `handleGenerate` (App.jsx 147–180): parse
the five required cells, throw the row error if any fails or the weekday
set is empty, otherwise expand the occurrences and build one event per
occurrence. -/
def processRow (oracle : List Char → Option (Int × Int × Int)) (m : Mapping)
    (titleTemplate : List Char) (row : Row) : Except (List Char) (List Event) :=
  let rowError : Except (List Char) (List Event) :=
    .error (strL "Could not parse one of date, time, or days")
  match parseDate oracle (row m.startDateField), parseDate oracle (row m.endDateField),
      parseTime (row m.startTimeField), parseTime (row m.endTimeField) with
  | some startDate, some endDate, some startTime, some endTime =>
    let days := parseDays (row m.daysField)
    if days = ∅ then rowError
    else
      let summary := resolveTitle m titleTemplate row
      let location := if m.locationField = [] then [] else jsTrim (row m.locationField)
      let description := if m.descField = [] then [] else jsTrim (row m.descField)
      .ok ((expandOccurrences startDate endDate days).map
        (fun d => { summary := summary, location := location, description := description,
                    dtStart := combineDateTime d startTime,
                    dtEnd := combineDateTime d endTime }))
  | _, _, _, _ => rowError

/-- The first missing required mapping, with its `labelForKey` label, in
the source's check order (start date, end date, start time, end time, days
pattern). -/
def firstMissing (m : Mapping) : Option (List Char) :=
  if m.startDateField = [] then some (strL "Start date")
  else if m.endDateField = [] then some (strL "End date")
  else if m.startTimeField = [] then some (strL "Start time")
  else if m.endTimeField = [] then some (strL "End time")
  else if m.daysField = [] then some (strL "Days pattern")
  else none

/-- All events of a run: each row's events in row order (a failed row
contributes none). -/
def rowEvents (oracle : List Char → Option (Int × Int × Int)) (m : Mapping)
    (titleTemplate : List Char) (rows : List Row) : List Event :=
  (rows.map (fun r => ((processRow oracle m titleTemplate r).toOption.getD []))).join

/-- The side list of row failures: 1-based row position and reason, in row
order. -/
def rowErrors (oracle : List Char → Option (Int × Int × Int)) (m : Mapping)
    (titleTemplate : List Char) (rows : List Row) : List (Nat × List Char) :=
  rows.enum.filterMap (fun ir =>
    match processRow oracle m titleTemplate ir.2 with
    | .error e => some (ir.1 + 1, e)
    | .ok _ => none)

/-- The engine of `handleGenerate`: check the required mappings before
touching any row, process every row collecting events and failures, abort
when no event was generated, otherwise serialize.  The result pairs the
document with the row-failure list. -/
def handleGenerate (oracle : List Char → Option (Int × Int × Int))
    (uids : Nat → List Char) (stamp : List Char) (m : Mapping) (rows : List Row)
    (titleTemplate calName tzHint : List Char) :
    Except (List Char) (List Char × List (Nat × List Char)) :=
  match firstMissing m with
  | some lbl => .error (strL "Missing required mapping: " ++ lbl)
  | none =>
    let events := rowEvents oracle m titleTemplate rows
    let errors := rowErrors oracle m titleTemplate rows
    if events = [] then .error (strL "No events generated. Check mappings and data.")
    else .ok (buildICS events calName tzHint uids stamp, errors)

/-! ## Concrete fixtures (used by witnesses and counterexamples) -/

/-- An oracle on which the browser's free-form date interpretation always
fails (every theorem below holds for every oracle; the fixtures use this
one, driving `parseDate` into its strict 8-digit fallback). -/
def oracle0 : List Char → Option (Int × Int × Int) := fun _ => none

/-- A fixture identifier source. -/
def uids0 : Nat → List Char := fun _ => strL "uid0"

/-- A fixture generation timestamp. -/
def stamp0 : List Char := strL "20250101T000000Z"

/-- A complete fixture mapping. -/
def m0 : Mapping :=
  { startDateField := strL "SD"
    endDateField := strL "ED"
    startTimeField := strL "ST"
    endTimeField := strL "ET"
    daysField := strL "D"
    courseField := strL "CRS"
    sectionField := strL "SEC" }

/-- A fixture row that parses (one Monday, 10:00–10:50, pattern MWF). -/
def goodRow : Row := fun c =>
  if c = strL "SD" then strL "2025-01-06" else
  if c = strL "ED" then strL "2025-01-06" else
  if c = strL "ST" then strL "10:00 AM" else
  if c = strL "ET" then strL "10:50 AM" else
  if c = strL "D" then strL "MWF" else []

/-- A fixture row whose days pattern has no recognizable token. -/
def badRow : Row := fun c =>
  if c = strL "D" then strL "Xyz" else goodRow c

/-- A fixture row whose course cell is itself the `{Section}` token. -/
def rowC : Row := fun c =>
  if c = strL "CRS" then strL "{Section}" else
  if c = strL "SEC" then strL "S" else []

/-- A fixture event (2025-01-06, 10:00–10:50). -/
def ev0 : Event :=
  { summary := strL "CS 101"
    location := []
    description := []
    dtStart := combineDateTime (daysFromCivil 2025 1 6) ⟨10, 0, 0⟩
    dtEnd := combineDateTime (daysFromCivil 2025 1 6) ⟨10, 50, 0⟩ }

deriving instance DecidableEq for Except

end WorkdayICS

namespace WorkdayICS

/-! # Lemmas -/

/-! ## Evaluation sanity checks (concrete runs of the embedded code) -/

example : parseTime (strL "8:00 AM") = some ⟨8, 0, 0⟩ := by decide
example : parseTime (strL "8 PM") = some ⟨20, 0, 0⟩ := by decide
example : parseTime (strL "20:30") = some ⟨20, 30, 0⟩ := by decide
example : parseTime (strL "12:00 AM") = some ⟨0, 0, 0⟩ := by decide
example : parseTime (strL "12:00 PM") = some ⟨12, 0, 0⟩ := by decide
example : parseTime (strL "85") = some ⟨85, 0, 0⟩ := by decide
example : parseTime (strL "8:99") = some ⟨8, 99, 0⟩ := by decide
example : parseTime (strL "xx") = none := by decide
example : normalizeDate (daysFromCivil 2025 1 6) = daysFromCivil 2025 1 6 := by decide
example : weekday (daysFromCivil 2025 1 6) = 1 := by decide
example : expandOccurrences (daysFromCivil 2025 1 6) (daysFromCivil 2025 1 17) (parseDays (strL "MWF")) =
    [daysFromCivil 2025 1 6, daysFromCivil 2025 1 8, daysFromCivil 2025 1 10,
     daysFromCivil 2025 1 13, daysFromCivil 2025 1 15, daysFromCivil 2025 1 17] := by decide
example : normalizeDate (daysFromCivil 50 1 5) = daysFromCivil 1950 1 5 := by decide
example : parseDate (fun _ => none) (strL "2025-01-06") = some (daysFromCivil 2025 1 6) := by decide
example : parseDate (fun _ => none) (strL "20250106") = some (daysFromCivil 2025 1 6) := by decide
example : icsEscape (strL "a,b;c\\d\ne") = strL "a\\,b\\;c\\\\d\\ne" := by decide
example : icsUnescape (icsEscape (strL "a,b;c\\d\ne")) = strL "a,b;c\\d\ne" := by decide
example : foldLine (List.replicate 150 'A') =
    [List.replicate 75 'A', ' ' :: List.replicate 75 'A'] := by decide
example : rejoinFolded (foldLine (List.replicate 150 'A')) = List.replicate 150 'A' := by decide
example : unfoldIcs (foldLines (strL "ab\ncd")) = strL "ab\ncd" := by decide

/-! ## Escaping (for C4 and C6) -/

theorem icsEscape_cons (c : Char) (cs : List Char) :
    icsEscape (c :: cs) = escChar c ++ icsEscape cs := by
  by_cases h1 : c = '\\'
  · simp [icsEscape, escChar, escStage1, escStage2, escStage3, h1]
  · by_cases h2 : c = '\n'
    · simp [icsEscape, escChar, escStage1, escStage2, escStage3, h1, h2]
    · by_cases h3 : c = ',' ∨ c = ';'
      · rcases h3 with h3 | h3 <;>
          simp_all [icsEscape, escChar, escStage1, escStage2, escStage3]
      · push_neg at h3
        simp [icsEscape, escChar, escStage1, escStage2, escStage3, h1, h2, h3.1, h3.2]

theorem icsEscape_nil : icsEscape [] = [] := rfl

theorem icsUnescape_escChar (c : Char) (rest : List Char) :
    icsUnescape (escChar c ++ rest) = c :: icsUnescape rest := by
  by_cases h1 : c = '\\'
  · simp [escChar, h1, icsUnescape]
  · by_cases h2 : c = '\n'
    · simp [escChar, h1, h2, icsUnescape]
    · by_cases h3 : c = ',' ∨ c = ';'
      · rcases h3 with h3 | h3 <;> simp_all [escChar, icsUnescape]
      · push_neg at h3
        simp only [escChar, if_neg h1, if_neg h2, if_neg (by tauto : ¬(c = ',' ∨ c = ';'))]
        cases rest with
        | nil => simp [icsUnescape, h1]
        | cons d ds =>
          show icsUnescape (c :: d :: ds) = c :: icsUnescape (d :: ds)
          rcases eq_or_ne c '\\' with h | h
          · exact absurd h h1
          · rw [icsUnescape.eq_def]
            split
            · simp_all
            · simp_all
            · rename_i heq; injection heq with ha hb; simp_all
            · rename_i heq; injection heq with ha hb; rw [← ha, ← hb]

theorem icsUnescape_icsEscape (cs : List Char) :
    icsUnescape (icsEscape cs) = cs := by
  induction cs with
  | nil => rfl
  | cons c rest ih => rw [icsEscape_cons, icsUnescape_escChar, ih]

theorem newline_not_mem_escChar (c : Char) : '\n' ∉ escChar c := by
  by_cases h1 : c = '\\'
  · simp [escChar, h1]
  · by_cases h2 : c = '\n'
    · simp [escChar, h1, h2]
    · by_cases h3 : c = ',' ∨ c = ';'
      · rcases h3 with h3 | h3 <;> simp_all [escChar]
      · simp only [escChar, if_neg h1, if_neg h2, if_neg h3]
        simpa using fun hc => h2 hc.symm

theorem newline_not_mem_icsEscape (cs : List Char) : '\n' ∉ icsEscape cs := by
  induction cs with
  | nil => simp [icsEscape_nil]
  | cons c rest ih =>
    rw [icsEscape_cons]
    simp only [List.mem_append]
    rintro (h | h)
    · exact newline_not_mem_escChar c h
    · exact ih h

end WorkdayICS

namespace WorkdayICS

/-! # Claim theorems -/

/-- C2: the weekday-pattern parser on the claim's seven inputs.  Six of
them behave as claimed; the compact concatenated form `TuTh` does not: it
yields `{Tuesday}` only (the `\bTH\b` normalization cannot match inside
`TUTH` and the compact scanner skips `T`-not-followed-by-`U` and `H`), so
the claim's expected `{Tuesday, Thursday}` is contradicted by the code's
own examples (`TuTh` in the file header comment and the UI hint). -/
theorem parseDays_examples_eval :
    parseDays (strL "MWF") = {1, 3, 5} ∧
    parseDays (strL "mwf") = {1, 3, 5} ∧
    parseDays (strL "M W F") = {1, 3, 5} ∧
    parseDays (strL "Mon Wed Fri") = {1, 3, 5} ∧
    parseDays (strL "Monday, Wednesday, Friday") = {1, 3, 5} ∧
    parseDays (strL "T R") = {2, 4} ∧
    parseDays (strL "TuTh") = {2} ∧ (4 : Nat) ∉ parseDays (strL "TuTh") :=
  ⟨Finset.val_inj.mp (by decide), Finset.val_inj.mp (by decide),
   Finset.val_inj.mp (by decide), Finset.val_inj.mp (by decide),
   Finset.val_inj.mp (by decide), Finset.val_inj.mp (by decide),
   Finset.val_inj.mp (by decide), by decide⟩

/-- C4: escaping followed by the rule's inverse is the identity, and the
escaping function is injective. -/
theorem icsEscape_roundTrip (cs ds : List Char) :
    icsUnescape (icsEscape cs) = cs ∧ (icsEscape cs = icsEscape ds → cs = ds) :=
  ⟨icsUnescape_icsEscape cs,
   fun h => by
    have := congrArg icsUnescape h
    rwa [icsUnescape_icsEscape, icsUnescape_icsEscape] at this⟩

/-- C5: the five claimed time parses, and the 12-hour correction exactly as
claimed — applied only under a meridiem suffix (`AM` turns hour 12 into 0
and keeps other hours; `PM` adds 12 to hours below 12 and keeps the rest;
no suffix keeps the hour literal). -/
theorem parseTime_examples (h h' : Nat) (hlt : h < 12) :
    parseTime (strL "8:00 AM") = some ⟨8, 0, 0⟩ ∧
    parseTime (strL "8 PM") = some ⟨20, 0, 0⟩ ∧
    parseTime (strL "20:30") = some ⟨20, 30, 0⟩ ∧
    parseTime (strL "12:00 AM") = some ⟨0, 0, 0⟩ ∧
    parseTime (strL "12:00 PM") = some ⟨12, 0, 0⟩ ∧
    applyMeridiem (some .AM) 12 = 0 ∧
    (h' = 12 ∨ applyMeridiem (some .AM) h' = h') ∧
    applyMeridiem (some .PM) h = h + 12 ∧
    applyMeridiem (some .PM) (h' + 12) = h' + 12 ∧
    applyMeridiem none h' = h' := by
  refine ⟨by decide, by decide, by decide, by decide, by decide, rfl, ?_, ?_, ?_, rfl⟩
  · by_cases h12 : h' = 12
    · exact Or.inl h12
    · exact Or.inr (by simp [applyMeridiem, h12])
  · simp [applyMeridiem, hlt]
  · simp [applyMeridiem]

/-- C5 witness at hour 8 (below 12) and hour 7. -/
theorem parseTime_examples_witness :
    parseTime (strL "8:00 AM") = some ⟨8, 0, 0⟩ ∧
    parseTime (strL "8 PM") = some ⟨20, 0, 0⟩ ∧
    parseTime (strL "20:30") = some ⟨20, 30, 0⟩ ∧
    parseTime (strL "12:00 AM") = some ⟨0, 0, 0⟩ ∧
    parseTime (strL "12:00 PM") = some ⟨12, 0, 0⟩ ∧
    applyMeridiem (some .AM) 12 = 0 ∧
    ((7 : Nat) = 12 ∨ applyMeridiem (some .AM) 7 = 7) ∧
    applyMeridiem (some .PM) 8 = 8 + 12 ∧
    applyMeridiem (some .PM) (7 + 12) = 7 + 12 ∧
    applyMeridiem none 7 = 7 :=
  parseTime_examples 8 7 (by decide)

/-! ## Bounds of the time parser (for C10) -/

theorem digitVal_le (c : Char) (h : isDigitC c = true) : digitVal c ≤ 9 := by
  simp only [isDigitC, Bool.and_eq_true, decide_eq_true_eq] at h
  simp only [digitVal]
  omega

theorem optColon2_getD_le (cs : List Char) : ((optColon2 cs).1).getD 0 ≤ 99 := by
  rw [optColon2.eq_def]
  split
  · rename_i a b rest
    split_ifs with h
    · simp only [Bool.and_eq_true] at h
      have ha := digitVal_le a h.1
      have hb := digitVal_le b h.2
      simp only [Option.getD_some]
      omega
    · simp
  · simp

theorem matchARest_bound (h : Nat) (cs : List Char) (h' mi se : Nat) (mer : Option Mer)
    (hm : matchARest h cs = some (h', mi, se, mer)) :
    h' = h ∧ mi ≤ 99 ∧ se ≤ 99 := by
  rw [matchARest] at hm
  have h1 := optColon2_getD_le cs
  have h2 := optColon2_getD_le (optColon2 cs).2
  split at hm <;> simp_all

theorem matchA_bound (cs : List Char) (h mi se : Nat) (mer : Option Mer)
    (hm : matchA cs = some (h, mi, se, mer)) :
    h ≤ 99 ∧ mi ≤ 99 ∧ se ≤ 99 := by
  rw [matchA.eq_def] at hm
  split at hm
  · rename_i c1 c2 rest
    split_ifs at hm with hd hd1
    · simp only [Bool.and_eq_true] at hd
      have h1 := digitVal_le c1 hd.1
      have h2 := digitVal_le c2 hd.2
      cases hA : matchARest (10 * digitVal c1 + digitVal c2) rest with
      | some v =>
        rw [hA] at hm
        simp only [Option.some_orElse] at hm
        obtain ⟨he, h99⟩ := matchARest_bound _ _ _ _ _ _ (hA.trans hm)
        exact ⟨by omega, h99⟩
      | none =>
        rw [hA] at hm
        simp only [Option.none_orElse] at hm
        obtain ⟨he, h99⟩ := matchARest_bound _ _ _ _ _ _ hm
        exact ⟨by omega, h99⟩
    · have h1 := digitVal_le c1 hd1
      obtain ⟨he, h99⟩ := matchARest_bound _ _ _ _ _ _ hm
      exact ⟨by omega, h99⟩
  · rename_i c1
    split_ifs at hm with hd
    · have h1 := digitVal_le c1 hd
      obtain ⟨he, h99⟩ := matchARest_bound _ _ _ _ _ _ hm
      exact ⟨by omega, h99⟩
  · exact absurd hm (by simp)

theorem applyMeridiem_le (mer : Option Mer) (h : Nat) (hh : h ≤ 99) :
    applyMeridiem mer h ≤ 99 := by
  rcases mer with _ | m
  · exact hh
  · cases m <;> simp only [applyMeridiem] <;> split_ifs <;> omega

theorem matchBRest_bound (h : Nat) (cs : List Char) (t : Time)
    (hm : matchBRest h cs = some t) : t.h = h ∧ t.min ≤ 99 ∧ t.sec ≤ 99 := by
  rw [matchBRest.eq_def] at hm
  split at hm
  · rename_i a b rest
    split_ifs at hm with hd
    · simp only [Bool.and_eq_true] at hd
      have ha := digitVal_le a hd.1
      have hb := digitVal_le b hd.2
      split at hm
      · obtain rfl := Option.some_inj.mp hm
        refine ⟨rfl, ?_, ?_⟩
        · show 10 * digitVal a + digitVal b ≤ 99; omega
        · show (0 : Nat) ≤ 99; omega
      · rename_i c d
        split_ifs at hm with hd2
        · simp only [Bool.and_eq_true] at hd2
          have hc := digitVal_le c hd2.1
          have he := digitVal_le d hd2.2
          obtain rfl := Option.some_inj.mp hm
          refine ⟨rfl, ?_, ?_⟩
          · show 10 * digitVal a + digitVal b ≤ 99; omega
          · show 10 * digitVal c + digitVal d ≤ 99; omega
      · exact absurd hm (by simp)
  · exact absurd hm (by simp)

theorem matchB_bound (cs : List Char) (t : Time) (hm : matchB cs = some t) :
    t.h ≤ 99 ∧ t.min ≤ 99 ∧ t.sec ≤ 99 := by
  rw [matchB.eq_def] at hm
  split at hm
  · rename_i c1 c2 rest
    split_ifs at hm with hd hd1
    · simp only [Bool.and_eq_true] at hd
      have h1 := digitVal_le c1 hd.1
      have h2 := digitVal_le c2 hd.2
      cases hB : matchBRest (10 * digitVal c1 + digitVal c2) rest with
      | some v =>
        rw [hB] at hm
        simp only [Option.some_orElse] at hm
        obtain ⟨he, h99⟩ := matchBRest_bound _ _ _ (hB.trans hm)
        exact ⟨by omega, h99⟩
      | none =>
        rw [hB] at hm
        simp only [Option.none_orElse] at hm
        obtain ⟨he, h99⟩ := matchBRest_bound _ _ _ hm
        exact ⟨by omega, h99⟩
    · have h1 := digitVal_le c1 hd1
      obtain ⟨he, h99⟩ := matchBRest_bound _ _ _ hm
      exact ⟨by omega, h99⟩
  · exact absurd hm (by simp)

/-- C10 (amended): the parser performs no range validation.  What it does
guarantee is that each field comes from at most two decimal digits, the
meridiem correction included: hour, minute and second of every
successfully parsed time are at most 99 (the second still defaults to 0);
the claimed 0–23 / 0–59 / 0–59 ranges hold only when the digit groups of
the input are themselves in range. -/
theorem parseTime_bounds (s : List Char) (t : Time) (hp : parseTime s = some t) :
    t.h ≤ 99 ∧ t.min ≤ 99 ∧ t.sec ≤ 99 := by
  simp only [parseTime] at hp
  split_ifs at hp
  cases hA : matchA (upperL (jsTrim s)) with
  | some v =>
    rw [hA] at hp
    obtain ⟨h, mi, se, mer⟩ := v
    obtain ⟨hh, hmi, hse⟩ := matchA_bound _ _ _ _ _ hA
    obtain rfl := Option.some_inj.mp hp.symm
    exact ⟨applyMeridiem_le mer h hh, hmi, hse⟩
  | none =>
    rw [hA] at hp
    exact matchB_bound _ _ hp

/-- C10 witness: the bounds at the parse of `"20:30"`. -/
theorem parseTime_bounds_witness :
    (⟨20, 30, 0⟩ : Time).h ≤ 99 ∧ (⟨20, 30, 0⟩ : Time).min ≤ 99 ∧
      (⟨20, 30, 0⟩ : Time).sec ≤ 99 :=
  parseTime_bounds (strL "20:30") ⟨20, 30, 0⟩ (by decide)

/-- C10 counterexample: `"85"` parses successfully to hour 85 (beyond the
claimed 0–23 range) and `"8:99"` to minute 99 (beyond the claimed 0–59
range). -/
theorem parseTime_range_cex :
    parseTime (strL "85") = some ⟨85, 0, 0⟩ ∧ ¬(85 : Nat) ≤ 23 ∧
      parseTime (strL "8:99") = some ⟨8, 99, 0⟩ ∧ ¬(99 : Nat) ≤ 59 := by
  refine ⟨by decide, by decide, by decide, by decide⟩

/-! ## Line folding (for C3 and C6).

Every lemma about `chunks75Aux` carries the fuel hypothesis
`cs.length ≤ fuel + 75`: each recursive step removes 75 characters while
spending one unit of fuel, so the hypothesis is preserved, and
`chunks75` instantiates `fuel := cs.length`. -/

theorem chunksAux_join (fuel : Nat) (cs : List Char) (hf : cs.length ≤ fuel + 75) :
    (chunks75Aux fuel cs).join = cs := by
  induction fuel generalizing cs with
  | zero => simp [chunks75Aux]
  | succ fuel ih =>
    rw [chunks75Aux]
    split_ifs with h
    · simp
    · have hd : (cs.drop 75).length ≤ fuel + 75 := by
        simp only [List.length_drop]; omega
      simp [ih _ hd]

theorem chunksAux_length_le (fuel : Nat) (cs : List Char) (hf : cs.length ≤ fuel + 75) :
    ∀ p ∈ chunks75Aux fuel cs, p.length ≤ 75 := by
  induction fuel generalizing cs with
  | zero =>
    intro p hp
    simp only [chunks75Aux, List.mem_singleton] at hp
    subst hp; omega
  | succ fuel ih =>
    intro p hp
    rw [chunks75Aux] at hp
    split_ifs at hp with h
    · simp only [List.mem_singleton] at hp
      subst hp; omega
    · rcases List.mem_cons.mp hp with rfl | hp
      · simp
      · exact ih _ (by simp only [List.length_drop]; omega) p hp

theorem chunksAux_ne_nil (fuel : Nat) (cs : List Char) : chunks75Aux fuel cs ≠ [] := by
  cases fuel with
  | zero => simp [chunks75Aux]
  | succ fuel =>
    rw [chunks75Aux]
    split_ifs <;> simp

theorem chunksAux_mem_mem (fuel : Nat) (cs : List Char) :
    ∀ p ∈ chunks75Aux fuel cs, ∀ c ∈ p, c ∈ cs := by
  induction fuel generalizing cs with
  | zero =>
    intro p hp
    simp only [chunks75Aux, List.mem_singleton] at hp
    exact hp ▸ fun c hc => hc
  | succ fuel ih =>
    intro p hp c hc
    rw [chunks75Aux] at hp
    split_ifs at hp with h
    · simp only [List.mem_singleton] at hp
      exact hp ▸ hc
    · rcases List.mem_cons.mp hp with rfl | hp
      · exact List.mem_of_mem_take hc
      · exact List.mem_of_mem_drop (ih _ p hp c hc)

theorem chunksAux_head (fuel : Nat) (cs : List Char) (hf : cs.length ≤ fuel + 75) :
    (chunks75Aux fuel cs).headI = if cs.length ≤ 75 then cs else cs.take 75 := by
  cases fuel with
  | zero =>
    have : cs.length ≤ 75 := by omega
    simp [chunks75Aux, this]
  | succ fuel =>
    rw [chunks75Aux]
    split_ifs <;> simp

theorem foldLine_ne_nil (ln : List Char) : foldLine ln ≠ [] := by
  rw [foldLine]
  split
  · exact absurd (by assumption) (chunksAux_ne_nil _ _)
  · simp

theorem foldLine_eq_head_tail (ln : List Char) :
    foldLine ln = (chunks75 ln).headI :: ((chunks75 ln).tail).map (fun x => ' ' :: x) := by
  rw [foldLine]
  rcases h : chunks75 ln with _ | ⟨c, rest⟩
  · exact absurd h (chunksAux_ne_nil _ _)
  · simp

theorem foldLine_headI_length (ln : List Char) : (foldLine ln).headI.length ≤ 75 := by
  rw [foldLine_eq_head_tail]
  rw [show (chunks75 ln) = chunks75Aux ln.length ln from rfl,
    chunksAux_head ln.length ln (by omega)]
  split_ifs with h
  · simpa using h
  · simp

theorem foldLine_tail_space (ln : List Char) :
    ∀ p ∈ (foldLine ln).tail, p.head? = some ' ' ∧ p.length ≤ 76 := by
  intro p hp
  rw [foldLine_eq_head_tail] at hp
  simp only [List.tail_cons, List.mem_map] at hp
  obtain ⟨q, hq, rfl⟩ := hp
  have hq75 : q.length ≤ 75 :=
    chunksAux_length_le ln.length ln (by omega) q (List.mem_of_mem_tail hq)
  exact ⟨rfl, by simpa using hq75⟩

theorem foldLine_length_le (ln : List Char) : ∀ p ∈ foldLine ln, p.length ≤ 76 := by
  intro p hp
  rw [foldLine_eq_head_tail] at hp
  rcases List.mem_cons.mp hp with rfl | hp
  · have := foldLine_headI_length ln
    rw [foldLine_eq_head_tail] at this
    simpa using le_trans (by simpa using this) (by omega)
  · exact (foldLine_tail_space ln p (by rw [foldLine_eq_head_tail]; simpa using hp)).2

theorem rejoinFolded_foldLine (ln : List Char) : rejoinFolded (foldLine ln) = ln := by
  rw [foldLine]
  rcases h : chunks75 ln with _ | ⟨c, rest⟩
  · exact absurd h (chunksAux_ne_nil _ _)
  · have hj : (c :: rest).join = ln := by
      rw [← h]
      exact chunksAux_join ln.length ln (by omega)
    simp only [rejoinFolded, List.map_map]
    have : ∀ x : List Char, ((' ' :: x).drop 1) = x := fun x => rfl
    simp only [Function.comp_def, this, List.map_id_fun', id]
    simpa using hj

theorem foldLine_mem_mem (ln : List Char) :
    ∀ p ∈ foldLine ln, ∀ c ∈ p, c ∈ ln ∨ c = ' ' := by
  intro p hp c hc
  rw [foldLine_eq_head_tail] at hp
  rcases List.mem_cons.mp hp with rfl | hp
  · rw [show (chunks75 ln) = chunks75Aux ln.length ln from rfl,
      chunksAux_head ln.length ln (by omega)] at hc
    split_ifs at hc
    · exact Or.inl hc
    · exact Or.inl (List.mem_of_mem_take hc)
  · simp only [List.mem_map] at hp
    obtain ⟨q, hq, rfl⟩ := hp
    rcases List.mem_cons.mp hc with rfl | hc
    · exact Or.inr rfl
    · exact Or.inl (chunksAux_mem_mem ln.length ln q (List.mem_of_mem_tail hq) c hc)

/-- C3 (amended): re-joining the physical lines (stripping one leading
character — always a space — from every continuation line and
concatenating) reproduces the logical line exactly; the first physical
line never exceeds 75 characters, and every continuation line starts with
the folding space and never exceeds 76 characters (one space plus a
75-character chunk — the source appends the space *after* cutting 75
characters, so continuation lines reach 76, not 75). -/
theorem foldLine_refold_bound (ln : List Char) :
    rejoinFolded (foldLine ln) = ln ∧
    (foldLine ln).headI.length ≤ 75 ∧
    (∀ p ∈ (foldLine ln).tail, p.head? = some ' ' ∧ p.length ≤ 76) ∧
    (∀ p ∈ foldLine ln, p.length ≤ 76) :=
  ⟨rejoinFolded_foldLine ln, foldLine_headI_length ln, foldLine_tail_space ln,
   foldLine_length_le ln⟩

/-- C3 counterexample: a 150-character logical line folds into a first line
of 75 characters and a continuation line of 76 characters, so "no physical
line exceeds the 75-unit limit" fails. -/
theorem foldLine_limit_cex :
    foldLine (List.replicate 150 'A') =
      [List.replicate 75 'A', ' ' :: List.replicate 75 'A'] ∧
    ¬ (∀ p ∈ foldLine (List.replicate 150 'A'), p.length ≤ 75) := by
  exact ⟨by decide, by decide⟩

/-! ## The recurrence expander (for C1) -/

theorem expandOccurrences_eq (s e : Int) (W : Finset Nat)
    (hs : normalizeDate s = s) (he : normalizeDate e = e) :
    expandOccurrences s e W =
      (List.range (e + 1 - s).toNat).filterMap
        (fun i : Nat =>
          if weekday (s + (i : Int)) ∈ W then some (s + (i : Int)) else none) := by
  simp only [expandOccurrences, hs, he]

theorem mem_expandOccurrences (s e d : Int) (W : Finset Nat)
    (hs : normalizeDate s = s) (he : normalizeDate e = e) :
    d ∈ expandOccurrences s e W ↔ s ≤ d ∧ d ≤ e ∧ weekday d ∈ W := by
  rw [expandOccurrences_eq s e W hs he]
  constructor
  · intro hd
    simp only [List.mem_filterMap, List.mem_range] at hd
    obtain ⟨i, hi, hf⟩ := hd
    split_ifs at hf with hw
    obtain rfl := Option.some_inj.mp hf
    exact ⟨by omega, by omega, hw⟩
  · rintro ⟨h1, h2, h3⟩
    simp only [List.mem_filterMap, List.mem_range]
    refine ⟨(d - s).toNat, by omega, ?_⟩
    have hid : s + ((d - s).toNat : Int) = d := by omega
    rw [hid, if_pos h3]

/-- C1 (amended): for endpoints that the `Date` constructor's
reconstruction leaves unchanged — every date whose civil year is outside
0–99, the years ECMA-262's legacy rule shifts by +1900 — the expander's
output is strictly ascending, contains exactly the dates of the inclusive
range whose weekday belongs to the set, and is empty when the range is
empty or the set is empty. -/
theorem expandOccurrences_correct (s e : Int) (W : Finset Nat)
    (hs : normalizeDate s = s) (he : normalizeDate e = e) :
    (expandOccurrences s e W).Pairwise (· < ·) ∧
    (∀ d ∈ expandOccurrences s e W, weekday d ∈ W ∧ s ≤ d ∧ d ≤ e) ∧
    (∀ d : Int, s ≤ d → d ≤ e → weekday d ∈ W → d ∈ expandOccurrences s e W) ∧
    (e < s → expandOccurrences s e W = []) ∧
    (W = ∅ → expandOccurrences s e W = []) := by
  refine ⟨?_, ?_, ?_, ?_, ?_⟩
  · rw [expandOccurrences_eq s e W hs he]
    refine List.Pairwise.filterMap _ ?_ (List.pairwise_lt_range _)
    intro i j hij b hb b' hb'
    split_ifs at hb hb' with h h'
    · obtain rfl := Option.mem_some_iff.mp hb
      obtain rfl := Option.mem_some_iff.mp hb'
      omega
    all_goals simp_all
  · intro d hd
    have := (mem_expandOccurrences s e d W hs he).mp hd
    exact ⟨this.2.2, this.1, this.2.1⟩
  · intro d h1 h2 h3
    exact (mem_expandOccurrences s e d W hs he).mpr ⟨h1, h2, h3⟩
  · intro hlt
    rw [expandOccurrences_eq s e W hs he]
    have : (e + 1 - s).toNat = 0 := by omega
    simp [this]
  · rintro rfl
    rw [expandOccurrences_eq s e ∅ hs he]
    simp

/-- C1 witness: the January 2025 MWF schedule (2025-01-06 to 2025-01-17). -/
theorem expandOccurrences_correct_witness :
    (expandOccurrences (daysFromCivil 2025 1 6) (daysFromCivil 2025 1 17)
        {1, 3, 5}).Pairwise (· < ·) ∧
    (∀ d ∈ expandOccurrences (daysFromCivil 2025 1 6) (daysFromCivil 2025 1 17)
        {1, 3, 5},
      weekday d ∈ ({1, 3, 5} : Finset Nat) ∧ daysFromCivil 2025 1 6 ≤ d ∧
        d ≤ daysFromCivil 2025 1 17) ∧
    (∀ d : Int, daysFromCivil 2025 1 6 ≤ d → d ≤ daysFromCivil 2025 1 17 →
      weekday d ∈ ({1, 3, 5} : Finset Nat) →
      d ∈ expandOccurrences (daysFromCivil 2025 1 6) (daysFromCivil 2025 1 17)
            {1, 3, 5}) ∧
    (daysFromCivil 2025 1 17 < daysFromCivil 2025 1 6 →
      expandOccurrences (daysFromCivil 2025 1 6) (daysFromCivil 2025 1 17)
          {1, 3, 5} = []) ∧
    (({1, 3, 5} : Finset Nat) = ∅ →
      expandOccurrences (daysFromCivil 2025 1 6) (daysFromCivil 2025 1 17)
          {1, 3, 5} = []) :=
  expandOccurrences_correct (daysFromCivil 2025 1 6) (daysFromCivil 2025 1 17)
    {1, 3, 5} (by decide) (by decide)

/-- C1 counterexample: for 0050-01-05 the `Date` constructor reconstruction
inside the expander shifts both endpoints to 1950 (ECMA-262's year 0–99
rule), so with the full weekday set and the one-day range
[0050-01-05, 0050-01-05] the output misses the in-range date entirely —
the claimed completeness fails — and instead contains 1950-01-05. -/
theorem expandOccurrences_year50_cex :
    weekday (daysFromCivil 50 1 5) ∈ ({0, 1, 2, 3, 4, 5, 6} : Finset Nat) ∧
    daysFromCivil 50 1 5 ∉
      expandOccurrences (daysFromCivil 50 1 5) (daysFromCivil 50 1 5)
        {0, 1, 2, 3, 4, 5, 6} ∧
    expandOccurrences (daysFromCivil 50 1 5) (daysFromCivil 50 1 5)
        {0, 1, 2, 3, 4, 5, 6} = [daysFromCivil 1950 1 5] := by
  exact ⟨by decide, by decide, by decide⟩

/-- C7: with any required mapping key unset the conversion aborts with the
configuration error, and the result does not depend on the rows at all
(it equals the result on the empty row list), so no row is processed and
no output is produced. -/
theorem handleGenerate_missing_mapping (oracle : List Char → Option (Int × Int × Int))
    (uids : Nat → List Char) (stamp : List Char) (m : Mapping) (rows : List Row)
    (tt cal tz : List Char)
    (hmiss : m.startDateField = [] ∨ m.endDateField = [] ∨ m.startTimeField = [] ∨
      m.endTimeField = [] ∨ m.daysField = []) :
    (∃ lbl, handleGenerate oracle uids stamp m rows tt cal tz =
        .error (strL "Missing required mapping: " ++ lbl)) ∧
    handleGenerate oracle uids stamp m rows tt cal tz =
      handleGenerate oracle uids stamp m [] tt cal tz := by
  have hfm : ∃ lbl, firstMissing m = some lbl := by
    rw [firstMissing]
    rcases hmiss with h | h | h | h | h <;> simp [h] <;> split_ifs <;> simp
  obtain ⟨lbl, hl⟩ := hfm
  rw [handleGenerate, handleGenerate, hl]
  exact ⟨⟨lbl, rfl⟩, rfl⟩

/-- C7 witness: end time unmapped, one perfectly valid row. -/
theorem handleGenerate_missing_mapping_witness :
    (∃ lbl, handleGenerate oracle0 uids0 stamp0 { m0 with endTimeField := [] }
        [goodRow] (strL "T") (strL "C") [] =
        .error (strL "Missing required mapping: " ++ lbl)) ∧
    handleGenerate oracle0 uids0 stamp0 { m0 with endTimeField := [] }
        [goodRow] (strL "T") (strL "C") [] =
      handleGenerate oracle0 uids0 stamp0 { m0 with endTimeField := [] }
        [] (strL "T") (strL "C") [] :=
  handleGenerate_missing_mapping oracle0 uids0 stamp0 { m0 with endTimeField := [] }
    [goodRow] (strL "T") (strL "C") [] (by decide)

/-! ## Title resolution (for C9) -/

theorem getSubstitution_no_dollar (pat before after : List Char) :
    ∀ rep : List Char, '$' ∉ rep → getSubstitution pat before after rep = rep := by
  intro rep
  induction rep with
  | nil => intro _; rfl
  | cons c r ih =>
    intro h
    have hc : c ≠ '$' := fun hceq => h (by rw [hceq]; exact List.mem_cons_self _ _)
    have hr : '$' ∉ r := fun hm => h (List.mem_cons_of_mem c hm)
    rw [getSubstitution.eq_def]
    simp only [if_neg hc]
    rw [ih hr]

/-- C9 (amended): with a mapped title column the summary is that column's
trimmed text verbatim (template fully ignored), falling back to the
literal `"Class"` when the resolved title is empty; without one the three
tokens are substituted *sequentially* in the order `{Course}`,
`{Component}`, `{Section}`, so a substituted value containing a
later-stage token is itself substituted: a course cell `"{Section}"`
becomes the section text whenever that text carries no dollar
substitution pattern, while a section cell `"$&"` instead reproduces the
matched token `"{Section}"`, as the GetSubstitution step of JS
`replaceAll` prescribes; a value containing its own token is left alone
(the replacement text is never re-scanned by its own stage). -/
theorem resolveTitle_behavior (m : Mapping) (row : Row) (t t' : List Char) :
    (m.titleField ≠ [] →
      resolveTitle m t row = resolveTitle m t' row ∧
      resolveTitle m t row =
        (if jsTrim (row m.titleField) = [] then strL "Class"
         else jsTrim (row m.titleField))) ∧
    (m.titleField = [] → jsTrim (row m.courseField) = strL "{Section}" →
      '$' ∉ jsTrim (row m.sectionField) →
      resolveTitle m (strL "{Course}") row =
        (if jsTrim (collapseWs (jsTrim (row m.sectionField))) = [] then strL "Class"
         else jsTrim (collapseWs (jsTrim (row m.sectionField))))) ∧
    (m.titleField = [] → jsTrim (row m.courseField) = strL "{Section}" →
      jsTrim (row m.sectionField) = strL "$&" →
      resolveTitle m (strL "{Course}") row = strL "{Section}") ∧
    (m.titleField = [] → jsTrim (row m.courseField) = strL "{Course}" →
      resolveTitle m (strL "{Course}") row = strL "{Course}") ∧
    (m.titleField = [] → jsTrim (row m.courseField) = [] →
      resolveTitle m (strL "{Course}") row = strL "Class") := by
  refine ⟨?_, ?_, ?_, ?_, ?_⟩
  · intro h
    constructor
    · simp only [resolveTitle, if_pos h]
    · simp only [resolveTitle, if_pos h]
  · intro h hc hd
    simp only [resolveTitle, h, ne_eq, not_true_eq_false, if_false, hc]
    rw [show replaceAllL (strL "{Course}") (strL "{Section}") (strL "{Course}") =
          strL "{Section}" from by decide,
      show ∀ w, replaceAllL (strL "{Component}") w (strL "{Section}") =
          strL "{Section}" from fun w => rfl,
      show ∀ u, replaceAllL (strL "{Section}") u (strL "{Section}") =
          getSubstitution (strL "{Section}") [] [] u ++ [] from fun u => rfl,
      getSubstitution_no_dollar _ _ _ _ hd,
      List.append_nil]
  · intro h hc hs
    simp only [resolveTitle, h, ne_eq, not_true_eq_false, if_false, hc, hs]
    rw [show replaceAllL (strL "{Course}") (strL "{Section}") (strL "{Course}") =
          strL "{Section}" from by decide,
      show ∀ w, replaceAllL (strL "{Component}") w (strL "{Section}") =
          strL "{Section}" from fun w => rfl]
    decide
  · intro h hc
    simp only [resolveTitle, h, ne_eq, not_true_eq_false, if_false, hc]
    rw [show replaceAllL (strL "{Course}") (strL "{Course}") (strL "{Course}") =
          strL "{Course}" from by decide,
      show ∀ w, replaceAllL (strL "{Component}") w (strL "{Course}") =
          strL "{Course}" from fun w => rfl,
      show ∀ u, replaceAllL (strL "{Section}") u (strL "{Course}") =
          strL "{Course}" from fun u => rfl]
    decide
  · intro h hc
    simp only [resolveTitle, h, ne_eq, not_true_eq_false, if_false, hc]
    rw [show replaceAllL (strL "{Course}") [] (strL "{Course}") = [] from by decide,
      show ∀ w, replaceAllL (strL "{Component}") w [] = [] from fun w => rfl,
      show ∀ u, replaceAllL (strL "{Section}") u [] = [] from fun u => rfl]
    decide

/-- C9 counterexample: course cell `"{Section}"`, section cell `"S"`,
template `"{Course}"` — the sequential substitution turns the summary into
`"S"`, not the claimed untouched `"{Section}"`. -/
theorem resolveTitle_sequential_cex :
    resolveTitle m0 (strL "{Course}") rowC = strL "S" ∧
    resolveTitle m0 (strL "{Course}") rowC ≠ strL "{Section}" := by
  exact ⟨by decide, by decide⟩

/-! ## Per-row recovery (for C8) -/

theorem idx_mem_enum {α : Type} (l : List α) (i : Nat) (hi : i < l.length) :
    (i, l.get ⟨i, hi⟩) ∈ l.enum := by
  have h2 : i < l.enum.length := by simpa using hi
  have h3 := List.getElem_enum l (i := i) (by simpa using hi)
  have h4 : l.get ⟨i, hi⟩ = l[i] := rfl
  rw [h4, ← h3]
  exact List.getElem_mem h2

theorem join_map_eraseIdx {α β : Type} (f : α → List β) :
    ∀ (l : List α) (i : Nat) (hi : i < l.length),
      f (l.get ⟨i, hi⟩) = [] →
      (l.map f).join = ((l.eraseIdx i).map f).join := by
  intro l
  induction l with
  | nil => intro i hi; simp at hi
  | cons a rest ih =>
    intro i hi hf
    cases i with
    | zero => simpa using hf ▸ rfl
    | succ i =>
      have hi' : i < rest.length := by simpa using hi
      simpa using congrArg (f a ++ ·) (ih i hi' hf)

theorem mem_rowErrors (oracle : List Char → Option (Int × Int × Int)) (m : Mapping)
    (tt : List Char) (rows : List Row) (i : Nat) (hi : i < rows.length)
    (err : List Char) (hfail : processRow oracle m tt (rows.get ⟨i, hi⟩) = .error err) :
    (i + 1, err) ∈ rowErrors oracle m tt rows := by
  rw [rowErrors]
  refine List.mem_filterMap.mpr ⟨(i, rows.get ⟨i, hi⟩), idx_mem_enum rows i hi, ?_⟩
  simp only [List.get_eq_getElem] at hfail
  simp [hfail]

/-- C8: under a complete mapping, a failing row is recorded in the side
list at its 1-based position with the row-error reason and contributes no
event (the run's event list equals the one with that row removed), every
successful sibling row's events all appear in the run's event list, and as
soon as at least one event exists the whole run succeeds, returning the
serialized document and the failure list. -/
theorem handleGenerate_row_failure (oracle : List Char → Option (Int × Int × Int))
    (uids : Nat → List Char) (stamp : List Char) (m : Mapping) (rows : List Row)
    (tt cal tz : List Char) (hreq : firstMissing m = none)
    (i : Nat) (hi : i < rows.length) (err : List Char)
    (hfail : processRow oracle m tt (rows.get ⟨i, hi⟩) = .error err) :
    ((i + 1, err) ∈ rowErrors oracle m tt rows) ∧
    rowEvents oracle m tt rows = rowEvents oracle m tt (rows.eraseIdx i) ∧
    (∀ (j : Nat) (hj : j < rows.length) (evs : List Event),
      processRow oracle m tt (rows.get ⟨j, hj⟩) = .ok evs →
      evs.Sublist (rowEvents oracle m tt rows)) ∧
    (rowEvents oracle m tt rows ≠ [] →
      handleGenerate oracle uids stamp m rows tt cal tz =
        .ok (buildICS (rowEvents oracle m tt rows) cal tz uids stamp,
          rowErrors oracle m tt rows)) := by
  refine ⟨mem_rowErrors oracle m tt rows i hi err hfail, ?_, ?_, ?_⟩
  · refine join_map_eraseIdx _ rows i hi ?_
    simp only [List.get_eq_getElem] at hfail ⊢
    rw [hfail]
    rfl
  · intro j hj evs hok
    rw [rowEvents]
    have hf : (fun r => ((processRow oracle m tt r).toOption.getD []))
        (rows.get ⟨j, hj⟩) = evs := by
      simp only [List.get_eq_getElem] at hok ⊢
      rw [hok]
      rfl
    have hmem : evs ∈ rows.map
        (fun r => ((processRow oracle m tt r).toOption.getD [])) :=
      hf ▸ List.mem_map_of_mem _ (rows.get_mem _ _)
    exact List.sublist_join hmem
  · intro hne
    rw [handleGenerate, hreq]
    simp only [if_neg hne]

/-- C8 witness: row 1 has days pattern `"Xyz"` (empty weekday set) and is
recorded as the failure `(1, reason)`; row 2 is valid, its events appear,
and the run succeeds. -/
theorem handleGenerate_row_failure_witness :
    ((0 + 1, strL "Could not parse one of date, time, or days") ∈
      rowErrors oracle0 m0 (strL "T") [badRow, goodRow]) ∧
    rowEvents oracle0 m0 (strL "T") [badRow, goodRow] =
      rowEvents oracle0 m0 (strL "T") ([badRow, goodRow].eraseIdx 0) ∧
    (∀ (j : Nat) (hj : j < ([badRow, goodRow] : List Row).length) (evs : List Event),
      processRow oracle0 m0 (strL "T") (([badRow, goodRow] : List Row).get ⟨j, hj⟩) =
        .ok evs →
      evs.Sublist (rowEvents oracle0 m0 (strL "T") [badRow, goodRow])) ∧
    (rowEvents oracle0 m0 (strL "T") [badRow, goodRow] ≠ [] →
      handleGenerate oracle0 uids0 stamp0 m0 [badRow, goodRow] (strL "T")
          (strL "C") [] =
        .ok (buildICS (rowEvents oracle0 m0 (strL "T") [badRow, goodRow])
            (strL "C") [] uids0 stamp0,
          rowErrors oracle0 m0 (strL "T") [badRow, goodRow])) :=
  handleGenerate_row_failure oracle0 uids0 stamp0 m0 [badRow, goodRow]
    (strL "T") (strL "C") [] (by decide) 0 (by decide)
    (strL "Could not parse one of date, time, or days") (by decide)

/-! ## Document structure (for C6): splitting, joining and unfolding -/

theorem joinNl_cons (x : List Char) (xs : List (List Char)) (h : xs ≠ []) :
    joinNl (x :: xs) = x ++ '\n' :: joinNl xs := by
  cases xs with
  | nil => exact absurd rfl h
  | cons y ys => rfl

theorem joinNl_append (xs ys : List (List Char)) (hx : xs ≠ []) (hy : ys ≠ []) :
    joinNl (xs ++ ys) = joinNl xs ++ '\n' :: joinNl ys := by
  induction xs with
  | nil => exact absurd rfl hx
  | cons x xs ih =>
    cases xs with
    | nil =>
      cases ys with
      | nil => exact absurd rfl hy
      | cons y ys => rfl
    | cons x' xs' =>
      rw [List.cons_append, joinNl_cons x ((x' :: xs') ++ ys) (by simp),
        joinNl_cons x (x' :: xs') (by simp), ih (by simp)]
      simp

theorem splitNl_no_nl (a : List Char) (h : '\n' ∉ a) : splitNl a = [a] := by
  induction a with
  | nil => rfl
  | cons c a ih =>
    have hc : c ≠ '\n' := fun hc => h (hc ▸ List.mem_cons_self c a)
    have ha : '\n' ∉ a := fun ha => h (List.mem_cons_of_mem c ha)
    rw [splitNl, if_neg hc, ih ha]

theorem splitNl_append_nl (a b : List Char) (h : '\n' ∉ a) :
    splitNl (a ++ '\n' :: b) = a :: splitNl b := by
  induction a with
  | nil => simp [splitNl]
  | cons c a ih =>
    have hc : c ≠ '\n' := fun hc => h (hc ▸ List.mem_cons_self c a)
    have ha : '\n' ∉ a := fun ha => h (List.mem_cons_of_mem c ha)
    rw [List.cons_append, splitNl, if_neg hc, ih ha]

theorem splitNl_joinNl (ls : List (List Char)) (hne : ls ≠ [])
    (h : ∀ l ∈ ls, '\n' ∉ l) : splitNl (joinNl ls) = ls := by
  induction ls with
  | nil => exact absurd rfl hne
  | cons l ls ih =>
    cases ls with
    | nil => exact splitNl_no_nl l (h l (by simp))
    | cons l' ls' =>
      rw [joinNl_cons l (l' :: ls') (by simp),
        splitNl_append_nl l (joinNl (l' :: ls')) (h l (by simp)),
        ih (by simp) (fun x hx => h x (List.mem_cons_of_mem l hx))]

theorem splitNl_joinNl_append (ps : List (List Char)) (rest : List Char)
    (hne : ps ≠ []) (h : ∀ p ∈ ps, '\n' ∉ p) :
    splitNl (joinNl ps ++ '\n' :: rest) = ps ++ splitNl rest := by
  induction ps with
  | nil => exact absurd rfl hne
  | cons p ps ih =>
    cases ps with
    | nil => exact splitNl_append_nl p rest (h p (by simp))
    | cons p' ps' =>
      rw [joinNl_cons p (p' :: ps') (by simp), List.append_assoc,
        List.cons_append,
        splitNl_append_nl p _ (h p (by simp)),
        ih (by simp) (fun x hx => h x (List.mem_cons_of_mem p hx))]
      rfl

theorem unfoldIcs_nil : unfoldIcs [] = [] := rfl

theorem unfoldIcs_cons_ne (c : Char) (r : List Char) (h : c ≠ '\n') :
    unfoldIcs (c :: r) = c :: unfoldIcs r := by
  rw [unfoldIcs.eq_def]
  split
  · rename_i heq
    injection heq with h1 h2
    exact absurd h1 h
  · rename_i heq
    injection heq with h1 h2
    rw [← h1, ← h2]
  · rename_i heq
    exact absurd heq (by simp)

theorem unfoldIcs_nl_cons (r : List Char) (h : r.head? ≠ some ' ') :
    unfoldIcs ('\n' :: r) = '\n' :: unfoldIcs r := by
  cases r with
  | nil => rfl
  | cons c r' =>
    have hc : c ≠ ' ' := by simpa using h
    rw [unfoldIcs.eq_def]
    split
    · rename_i heq
      injection heq with h1 h2
      injection h2 with h3 h4
      exact absurd h3 hc
    · rename_i heq
      injection heq with h1 h2
      rw [← h1, ← h2]
    · rename_i heq
      exact absurd heq (by simp)

theorem unfoldIcs_append (a b : List Char) (h : '\n' ∉ a) :
    unfoldIcs (a ++ b) = a ++ unfoldIcs b := by
  induction a with
  | nil => rfl
  | cons c a ih =>
    have hc : c ≠ '\n' := fun hc => h (hc ▸ List.mem_cons_self c a)
    have ha : '\n' ∉ a := fun ha => h (List.mem_cons_of_mem c ha)
    rw [List.cons_append, unfoldIcs_cons_ne c _ hc, ih ha]
    simp

theorem unfoldIcs_line_cons (a b : List Char) (ha : '\n' ∉ a)
    (hb : b.head? ≠ some ' ') :
    unfoldIcs (a ++ '\n' :: b) = a ++ '\n' :: unfoldIcs b := by
  rw [unfoldIcs_append a _ ha, unfoldIcs_nl_cons b hb]

/-! ## Unfolding a folded block recovers it (for C6) -/

theorem chunksAux_unfold (fuel : Nat) (m rest : List Char)
    (hf : m.length ≤ fuel + 75) (hm : '\n' ∉ m) :
    unfoldIcs ('\n' :: (joinNl ((chunks75Aux fuel m).map (fun x => ' ' :: x)) ++ rest)) =
      m ++ unfoldIcs rest := by
  induction fuel generalizing m with
  | zero =>
    show unfoldIcs ('\n' :: ((' ' :: m) ++ rest)) = m ++ unfoldIcs rest
    rw [List.cons_append,
      show unfoldIcs ('\n' :: ' ' :: (m ++ rest)) = unfoldIcs (m ++ rest) from rfl,
      unfoldIcs_append m rest hm]
  | succ fuel ih =>
    rw [chunks75Aux]
    split_ifs with h
    · show unfoldIcs ('\n' :: ((' ' :: m) ++ rest)) = m ++ unfoldIcs rest
      rw [List.cons_append,
        show unfoldIcs ('\n' :: ' ' :: (m ++ rest)) = unfoldIcs (m ++ rest) from rfl,
        unfoldIcs_append m rest hm]
    · rw [List.map_cons,
        joinNl_cons _ _ (by
          simpa using chunksAux_ne_nil fuel (m.drop 75))]
      have hdl : (m.drop 75).length ≤ fuel + 75 := by
        simp only [List.length_drop]; omega
      have hdm : '\n' ∉ m.drop 75 := fun hx => hm (List.mem_of_mem_drop hx)
      have htm : '\n' ∉ m.take 75 := fun hx => hm (List.mem_of_mem_take hx)
      calc unfoldIcs ('\n' :: ((' ' :: m.take 75 ++
              '\n' :: joinNl ((chunks75Aux fuel (m.drop 75)).map (fun x => ' ' :: x))) ++ rest))
          = unfoldIcs ('\n' :: ' ' :: (m.take 75 ++
              ('\n' :: (joinNl ((chunks75Aux fuel (m.drop 75)).map (fun x => ' ' :: x)) ++ rest)))) := by
            simp
        _ = unfoldIcs (m.take 75 ++
              ('\n' :: (joinNl ((chunks75Aux fuel (m.drop 75)).map (fun x => ' ' :: x)) ++ rest))) := rfl
        _ = m.take 75 ++ unfoldIcs
              ('\n' :: (joinNl ((chunks75Aux fuel (m.drop 75)).map (fun x => ' ' :: x)) ++ rest)) :=
            unfoldIcs_append _ _ htm
        _ = m.take 75 ++ (m.drop 75 ++ unfoldIcs rest) := by rw [ih _ hdl hdm]
        _ = m ++ unfoldIcs rest := by rw [← List.append_assoc, List.take_append_drop]

theorem chunks_short (l : List Char) (h : l.length ≤ 75) : chunks75 l = [l] := by
  rw [show chunks75 l = chunks75Aux l.length l from rfl]
  cases hl : l.length with
  | zero => rfl
  | succ k => rw [chunks75Aux, if_pos (hl ▸ h)]

theorem unfoldIcs_foldLine (l rest : List Char) (hl : '\n' ∉ l) :
    unfoldIcs (joinNl (foldLine l) ++ rest) = l ++ unfoldIcs rest := by
  by_cases h : l.length ≤ 75
  · rw [foldLine, chunks_short l h]
    show unfoldIcs (l ++ rest) = l ++ unfoldIcs rest
    exact unfoldIcs_append l rest hl
  · rw [foldLine, show chunks75 l = chunks75Aux l.length l from rfl]
    cases hl2 : l.length with
    | zero => omega
    | succ k =>
      rw [chunks75Aux, if_neg (hl2 ▸ h)]
      have hdl : (l.drop 75).length ≤ k + 75 := by
        simp only [List.length_drop]; omega
      have hdm : '\n' ∉ l.drop 75 := fun hx => hl (List.mem_of_mem_drop hx)
      have htm : '\n' ∉ l.take 75 := fun hx => hl (List.mem_of_mem_take hx)
      rw [joinNl_cons _ _ (by
          simpa using chunksAux_ne_nil k (l.drop 75)),
        List.append_assoc, unfoldIcs_append _ _ htm,
        show ('\n' :: joinNl ((chunks75Aux k (l.drop 75)).map (fun x => ' ' :: x))) ++ rest =
          '\n' :: (joinNl ((chunks75Aux k (l.drop 75)).map (fun x => ' ' :: x)) ++ rest) from rfl,
        chunksAux_unfold k (l.drop 75) rest hdl hdm,
        ← List.append_assoc, List.take_append_drop]

theorem headI_chunks_head? (l : List Char) : ((chunks75 l).headI).head? = l.head? := by
  rw [show chunks75 l = chunks75Aux l.length l from rfl,
    chunksAux_head l.length l (by omega)]
  split_ifs with h
  · rfl
  · cases l with
    | nil => rfl
    | cons c t =>
      rw [show (75 : Nat) = 74 + 1 from rfl, List.take_succ_cons]
      rfl

theorem foldLine_headI_head? (l : List Char) :
    ((foldLine l).headI).head? = l.head? := by
  rw [foldLine_eq_head_tail]
  exact headI_chunks_head? l

theorem joinFold_ne_nil (ls : List (List Char)) (h : ls ≠ []) :
    (ls.map foldLine).join ≠ [] := by
  cases ls with
  | nil => exact absurd rfl h
  | cons l ls =>
    simp only [List.map_cons, List.join_cons, ne_eq, List.append_eq_nil]
    rintro ⟨h1, h2⟩
    exact foldLine_ne_nil l h1

theorem head?_joinFold (ls : List (List Char)) (z : List Char) (hne : ls ≠ [])
    (h1 : (ls.headI).head? ≠ some ' ') (hz : z.head? ≠ some ' ') :
    (joinNl ((ls.map foldLine).join) ++ z).head? ≠ some ' ' := by
  cases ls with
  | nil => exact absurd rfl hne
  | cons l ls' =>
    simp only [List.headI] at h1
    have hrw : ((l :: ls').map foldLine).join = foldLine l ++ (ls'.map foldLine).join := rfl
    rw [hrw, foldLine_eq_head_tail]
    set c0 := (chunks75 l).headI with hc0
    have hc0h : c0.head? = l.head? := headI_chunks_head? l
    set W := ((chunks75 l).tail).map (fun x => ' ' :: x) ++ (ls'.map foldLine).join with hW
    show (joinNl (c0 :: W) ++ z).head? ≠ some ' '
    cases hWc : W with
    | nil =>
      show (joinNl [c0] ++ z).head? ≠ some ' '
      show (c0 ++ z).head? ≠ some ' '
      cases hc : c0 with
      | nil => simpa using hz
      | cons a t =>
        rw [hc] at hc0h
        simp only [List.cons_append, List.head?_cons]
        intro hcontra
        apply h1
        rw [← hc0h]
        simpa using hcontra
    | cons w ws =>
      rw [joinNl_cons _ _ (by simp [hWc])]
      cases hc : c0 with
      | nil => simp
      | cons a t =>
        rw [hc] at hc0h
        simp only [List.cons_append, List.head?_cons]
        intro hcontra
        apply h1
        rw [← hc0h]
        simpa using hcontra

theorem unfoldIcs_joinFold (ls : List (List Char)) (rest : List Char) (hne : ls ≠ [])
    (h : ∀ l ∈ ls, '\n' ∉ l ∧ l.head? ≠ some ' ') (hrest : rest.head? ≠ some ' ') :
    unfoldIcs (joinNl ((ls.map foldLine).join) ++ rest) = joinNl ls ++ unfoldIcs rest := by
  induction ls with
  | nil => exact absurd rfl hne
  | cons l L ih =>
    cases L with
    | nil =>
      show unfoldIcs (joinNl (foldLine l ++ []) ++ rest) = joinNl [l] ++ unfoldIcs rest
      rw [List.append_nil]
      exact unfoldIcs_foldLine l rest (h l (by simp)).1
    | cons l' L' =>
      have hrw : ((l :: l' :: L').map foldLine).join =
          foldLine l ++ ((l' :: L').map foldLine).join := rfl
      rw [hrw,
        joinNl_append _ _ (by simpa using foldLine_ne_nil l)
          (joinFold_ne_nil (l' :: L') (by simp)),
        List.append_assoc]
      have hstep : ('\n' :: joinNl (((l' :: L').map foldLine).join)) ++ rest =
          '\n' :: (joinNl (((l' :: L').map foldLine).join) ++ rest) := rfl
      rw [hstep, unfoldIcs_foldLine l _ (h l (by simp)).1,
        unfoldIcs_nl_cons _ (head?_joinFold (l' :: L') rest (by simp)
          (by
            show (l').head? ≠ some ' '
            exact (h l' (by simp)).2) hrest),
        ih (by simp) (fun x hx => h x (List.mem_cons_of_mem l hx)),
        joinNl_cons l (l' :: L') (by simp), List.append_assoc]
      rfl

theorem foldLine_no_nl (l : List Char) (hl : '\n' ∉ l) :
    ∀ p ∈ foldLine l, '\n' ∉ p := by
  intro p hp hnp
  rcases foldLine_mem_mem l p hp '\n' hnp with hc | hc
  · exact hl hc
  · exact absurd hc (by decide)

theorem unfoldIcs_foldLines (ls : List (List Char)) (rest : List Char) (hne : ls ≠ [])
    (h : ∀ l ∈ ls, '\n' ∉ l ∧ l.head? ≠ some ' ') (hrest : rest.head? ≠ some ' ') :
    unfoldIcs (foldLines (joinNl ls) ++ rest) = joinNl ls ++ unfoldIcs rest := by
  rw [foldLines, splitNl_joinNl ls hne (fun l hl => (h l hl).1)]
  exact unfoldIcs_joinFold ls rest hne h hrest

theorem splitNl_foldLines (ls : List (List Char)) (rest : List Char) (hne : ls ≠ [])
    (h : ∀ l ∈ ls, '\n' ∉ l) :
    splitNl (foldLines (joinNl ls) ++ '\n' :: rest) =
      (ls.map foldLine).join ++ splitNl rest := by
  rw [foldLines, splitNl_joinNl ls hne h]
  refine splitNl_joinNl_append _ _ (joinFold_ne_nil ls hne) ?_
  intro p hp
  simp only [List.mem_join, List.mem_map] at hp
  obtain ⟨q, ⟨l, hl, rfl⟩, hq⟩ := hp
  exact foldLine_no_nl l (h l hl) p hq

/-! ## The rendered fields contain no newline (for C6) -/

theorem digitChar_ne_nl (m : Nat) (hm : m < 10) : Nat.digitChar m ≠ '\n' := by
  interval_cases m <;> decide

theorem nl_not_mem_natDigitsAux (fuel n : Nat) : '\n' ∉ natDigitsAux fuel n := by
  induction fuel generalizing n with
  | zero => simp [natDigitsAux]
  | succ fuel ih =>
    rw [natDigitsAux]
    split_ifs with h
    · simp only [List.mem_singleton]
      exact fun hx => digitChar_ne_nl n h hx.symm
    · simp only [List.mem_append, List.mem_singleton]
      rintro (hx | hx)
      · exact ih _ hx
      · exact digitChar_ne_nl (n % 10) (Nat.mod_lt n (by omega)) hx.symm

theorem nl_not_mem_natDigits (n : Nat) : '\n' ∉ natDigits n :=
  nl_not_mem_natDigitsAux (n + 1) n

theorem nl_not_mem_intStr (n : Int) : '\n' ∉ intStr n := by
  rw [intStr]
  split_ifs with h
  · simp only [List.mem_cons]
    rintro (hx | hx)
    · exact absurd hx (by decide)
    · exact nl_not_mem_natDigits _ hx
  · exact nl_not_mem_natDigits _

theorem nl_not_mem_pad2 (cs : List Char) (h : '\n' ∉ cs) : '\n' ∉ pad2 cs := by
  rw [pad2]
  split_ifs with h2
  · simp only [List.mem_cons]
    rintro (hx | hx)
    · exact absurd hx (by decide)
    · exact h hx
  · exact h

theorem nl_not_mem_icsDateTimeLocal (dt : DateTime) :
    '\n' ∉ icsDateTimeLocal dt := by
  rw [icsDateTimeLocal]
  simp only [List.mem_append, List.mem_singleton]
  rintro ((((((hx | hx) | hx) | hx) | hx) | hx) | hx)
  · exact nl_not_mem_intStr _ hx
  · exact nl_not_mem_pad2 _ (nl_not_mem_intStr _) hx
  · exact nl_not_mem_pad2 _ (nl_not_mem_intStr _) hx
  · exact absurd hx (by decide)
  · exact nl_not_mem_pad2 _ (nl_not_mem_natDigits _) hx
  · exact nl_not_mem_pad2 _ (nl_not_mem_natDigits _) hx
  · exact nl_not_mem_pad2 _ (nl_not_mem_natDigits _) hx

/-! ## Event blocks (for C6) -/

theorem eventBlock_eq_joinNl (uid stamp : List Char) (ev : Event) :
    eventBlock uid stamp ev = joinNl (eventLines uid stamp ev) := by
  by_cases hs : ev.summary = [] <;> by_cases hl : ev.location = [] <;>
    by_cases hd : ev.description = [] <;>
    simp [eventBlock, eventLines, joinNl, hs, hl, hd]

theorem head?_strL_append (s : String) (x : List Char) (c : Char)
    (h : (strL s).head? = some c) : ((strL s) ++ x).head? = some c := by
  cases hs : strL s with
  | nil => rw [hs] at h; exact absurd h (by simp)
  | cons a t => rw [hs] at h; simpa using h

theorem eventLines_cond (uid stamp : List Char) (ev : Event)
    (hu : '\n' ∉ uid) (hst : '\n' ∉ stamp) :
    eventLines uid stamp ev ≠ [] ∧
      ∀ l ∈ eventLines uid stamp ev, '\n' ∉ l ∧ l.head? ≠ some ' ' := by
  have hesc : ∀ s : List Char, '\n' ∉ icsEscape s := newline_not_mem_icsEscape
  constructor
  · rw [eventLines]
    simp
  · intro l hl
    rw [eventLines] at hl
    simp only [List.append_assoc] at hl
    rcases List.mem_append.mp hl with h | h
    · simp only [List.mem_cons, List.mem_singleton] at h
      rcases h with rfl | rfl | rfl | rfl | rfl | h
      · exact ⟨by decide, by decide⟩
      · refine ⟨?_, ?_⟩
        · simp only [List.mem_append]
          rintro (hx | hx)
          · exact absurd hx (by decide)
          · exact hu hx
        · rw [head?_strL_append "UID:" uid 'U' (by decide)]; decide
      · refine ⟨?_, ?_⟩
        · simp only [List.mem_append]
          rintro (hx | hx)
          · exact absurd hx (by decide)
          · exact hst hx
        · rw [head?_strL_append "DTSTAMP:" stamp 'D' (by decide)]; decide
      · refine ⟨?_, ?_⟩
        · simp only [List.mem_append]
          rintro (hx | hx)
          · exact absurd hx (by decide)
          · exact nl_not_mem_icsDateTimeLocal _ hx
        · rw [head?_strL_append "DTSTART:" _ 'D' (by decide)]; decide
      · refine ⟨?_, ?_⟩
        · simp only [List.mem_append]
          rintro (hx | hx)
          · exact absurd hx (by decide)
          · exact nl_not_mem_icsDateTimeLocal _ hx
        · rw [head?_strL_append "DTEND:" _ 'D' (by decide)]; decide
      · exact absurd h (List.not_mem_nil l)
    · rcases List.mem_append.mp h with h | h
      · split_ifs at h with h1
        · exact absurd h (List.not_mem_nil l)
        · rw [List.mem_singleton] at h
          subst h
          refine ⟨?_, ?_⟩
          · simp only [List.mem_append]
            rintro (hx | hx)
            · exact absurd hx (by decide)
            · exact hesc _ hx
          · rw [head?_strL_append "SUMMARY:" _ 'S' (by decide)]; decide
      · rcases List.mem_append.mp h with h | h
        · split_ifs at h with h1
          · exact absurd h (List.not_mem_nil l)
          · rw [List.mem_singleton] at h
            subst h
            refine ⟨?_, ?_⟩
            · simp only [List.mem_append]
              rintro (hx | hx)
              · exact absurd hx (by decide)
              · exact hesc _ hx
            · rw [head?_strL_append "LOCATION:" _ 'L' (by decide)]; decide
        · rcases List.mem_append.mp h with h | h
          · split_ifs at h with h1
            · exact absurd h (List.not_mem_nil l)
            · rw [List.mem_singleton] at h
              subst h
              refine ⟨?_, ?_⟩
              · simp only [List.mem_append]
                rintro (hx | hx)
                · exact absurd hx (by decide)
                · exact hesc _ hx
              · rw [head?_strL_append "DESCRIPTION:" _ 'D' (by decide)]; decide
          · rw [List.mem_singleton] at h
            subst h
            exact ⟨by decide, by decide⟩

/-! ## Document assembly (for C6) -/

theorem join_cons' {α : Type} (x : List α) (xs : List (List α)) :
    (x :: xs).join = x ++ xs.join := rfl

theorem headI_mem' {α : Type} [Inhabited α] (l : List α) (h : l ≠ []) : l.headI ∈ l := by
  cases l with
  | nil => exact absurd rfl h
  | cons a t => simp

theorem head?_blocks (bs : List (List (List Char))) (rest : List Char)
    (hb : ∀ ls ∈ bs, ls ≠ [] ∧ ∀ l ∈ ls, '\n' ∉ l ∧ l.head? ≠ some ' ')
    (hrest : rest.head? ≠ some ' ') :
    ((bs.map (fun ls => foldLines (joinNl ls) ++ ['\n'])).join ++ rest).head? ≠ some ' ' := by
  cases bs with
  | nil => simpa using hrest
  | cons ls bs' =>
    obtain ⟨hne, hcond⟩ := hb ls (by simp)
    have hfold : foldLines (joinNl ls) = joinNl ((ls.map foldLine).join) := by
      rw [foldLines, splitNl_joinNl ls hne (fun l hl => (hcond l hl).1)]
    have hshape :
        ((ls :: bs').map (fun x => foldLines (joinNl x) ++ ['\n'])).join ++ rest =
          joinNl ((ls.map foldLine).join) ++
            ('\n' :: ((bs'.map (fun x => foldLines (joinNl x) ++ ['\n'])).join ++ rest)) := by
      rw [List.map_cons, join_cons', hfold]
      simp [List.append_assoc]
    rw [hshape]
    refine head?_joinFold ls _ hne ?_ (by simp)
    exact (hcond ls.headI (headI_mem' ls hne)).2

theorem unfold_blocks (bs : List (List (List Char))) (rest : List Char)
    (hb : ∀ ls ∈ bs, ls ≠ [] ∧ ∀ l ∈ ls, '\n' ∉ l ∧ l.head? ≠ some ' ')
    (hrest : rest.head? ≠ some ' ') :
    unfoldIcs ((bs.map (fun ls => foldLines (joinNl ls) ++ ['\n'])).join ++ rest) =
      (bs.map (fun ls => joinNl ls ++ ['\n'])).join ++ unfoldIcs rest := by
  induction bs with
  | nil =>
    show unfoldIcs ([] ++ rest) = [] ++ unfoldIcs rest
    rfl
  | cons ls bs' ih =>
    obtain ⟨hne, hcond⟩ := hb ls (by simp)
    have hshape :
        ((ls :: bs').map (fun x => foldLines (joinNl x) ++ ['\n'])).join ++ rest =
          foldLines (joinNl ls) ++
            ('\n' :: ((bs'.map (fun x => foldLines (joinNl x) ++ ['\n'])).join ++ rest)) := by
      rw [List.map_cons, join_cons']
      simp [List.append_assoc]
    rw [hshape, unfoldIcs_foldLines ls _ hne hcond (by simp),
      unfoldIcs_nl_cons _ (head?_blocks bs' rest
        (fun x hx => hb x (List.mem_cons_of_mem ls hx)) hrest),
      ih (fun x hx => hb x (List.mem_cons_of_mem ls hx))]
    rw [List.map_cons, join_cons']
    simp [List.append_assoc]

theorem split_blocks (bs : List (List (List Char))) (rest : List Char)
    (hb : ∀ ls ∈ bs, ls ≠ [] ∧ ∀ l ∈ ls, '\n' ∉ l) :
    splitNl ((bs.map (fun ls => foldLines (joinNl ls) ++ ['\n'])).join ++ rest) =
      (bs.map (fun ls => (ls.map foldLine).join)).join ++ splitNl rest := by
  induction bs with
  | nil =>
    show splitNl ([] ++ rest) = [] ++ splitNl rest
    rfl
  | cons ls bs' ih =>
    obtain ⟨hne, hcond⟩ := hb ls (by simp)
    have hshape :
        ((ls :: bs').map (fun x => foldLines (joinNl x) ++ ['\n'])).join ++ rest =
          foldLines (joinNl ls) ++
            ('\n' :: ((bs'.map (fun x => foldLines (joinNl x) ++ ['\n'])).join ++ rest)) := by
      rw [List.map_cons, join_cons']
      simp [List.append_assoc]
    rw [hshape, splitNl_foldLines ls _ hne hcond,
      ih (fun x hx => hb x (List.mem_cons_of_mem ls hx))]
    rw [List.map_cons, join_cons']
    simp [List.append_assoc]

theorem split_unfolded_blocks (bs : List (List (List Char))) (rest : List Char)
    (hb : ∀ ls ∈ bs, ls ≠ [] ∧ ∀ l ∈ ls, '\n' ∉ l) :
    splitNl ((bs.map (fun ls => joinNl ls ++ ['\n'])).join ++ rest) =
      bs.join ++ splitNl rest := by
  induction bs with
  | nil =>
    show splitNl ([] ++ rest) = [] ++ splitNl rest
    rfl
  | cons ls bs' ih =>
    obtain ⟨hne, hcond⟩ := hb ls (by simp)
    have hshape :
        ((ls :: bs').map (fun x => joinNl x ++ ['\n'])).join ++ rest =
          joinNl ls ++
            ('\n' :: ((bs'.map (fun x => joinNl x ++ ['\n'])).join ++ rest)) := by
      rw [List.map_cons, join_cons']
      simp [List.append_assoc]
    rw [hshape, splitNl_joinNl_append ls _ hne hcond,
      ih (fun x hx => hb x (List.mem_cons_of_mem ls hx))]
    rw [join_cons']
    simp [List.append_assoc]

theorem head?_headerJoin (hdr : List (List Char)) (rest : List Char)
    (hcond : ∀ l ∈ hdr, l.head? ≠ some ' ') (hrest : rest.head? ≠ some ' ') :
    ((hdr.map (fun l => l ++ ['\n'])).join ++ rest).head? ≠ some ' ' := by
  cases hdr with
  | nil => simpa using hrest
  | cons l t =>
    cases l with
    | nil => simp
    | cons c cs =>
      have := hcond (c :: cs) (by simp)
      simpa using this

theorem unfold_header (hdr : List (List Char)) (rest : List Char)
    (hh : ∀ l ∈ hdr, '\n' ∉ l ∧ l.head? ≠ some ' ') (hrest : rest.head? ≠ some ' ') :
    unfoldIcs ((hdr.map (fun l => l ++ ['\n'])).join ++ rest) =
      (hdr.map (fun l => l ++ ['\n'])).join ++ unfoldIcs rest := by
  induction hdr with
  | nil =>
    show unfoldIcs ([] ++ rest) = [] ++ unfoldIcs rest
    rfl
  | cons l t ih =>
    have hshape :
        ((l :: t).map (fun x => x ++ ['\n'])).join ++ rest =
          l ++ ('\n' :: ((t.map (fun x => x ++ ['\n'])).join ++ rest)) := by
      rw [List.map_cons, join_cons']
      simp [List.append_assoc]
    rw [hshape, unfoldIcs_line_cons l _ (hh l (by simp)).1
        (head?_headerJoin t rest (fun x hx => (hh x (List.mem_cons_of_mem l hx)).2) hrest),
      ih (fun x hx => hh x (List.mem_cons_of_mem l hx))]
    rw [List.map_cons, join_cons']
    simp [List.append_assoc]

theorem split_header (hdr : List (List Char)) (rest : List Char)
    (hh : ∀ l ∈ hdr, '\n' ∉ l) :
    splitNl ((hdr.map (fun l => l ++ ['\n'])).join ++ rest) = hdr ++ splitNl rest := by
  induction hdr with
  | nil =>
    show splitNl ([] ++ rest) = [] ++ splitNl rest
    rfl
  | cons l t ih =>
    have hshape :
        ((l :: t).map (fun x => x ++ ['\n'])).join ++ rest =
          l ++ ('\n' :: ((t.map (fun x => x ++ ['\n'])).join ++ rest)) := by
      rw [List.map_cons, join_cons']
      simp [List.append_assoc]
    rw [hshape, splitNl_append_nl l _ (hh l (by simp)),
      ih (fun x hx => hh x (List.mem_cons_of_mem l hx))]
    rfl

/-! ## C6: the serialized document's structure -/

theorem take_strL_append (s : String) (x : List Char) :
    ((strL s) ++ x).take (strL s).length = strL s := List.take_left _ _

/-- C6 (amended): every free-text field is escaped before emission, and the
document's *line structure* can never be broken by adversarial text: for
any events and any calendar name / timezone hint, RFC-5545 unfolding of
the built document followed by line-splitting yields exactly the intended
property lines (header, escaped name/hint, each event's property lines in
order, closing tag).  Folding, however, is applied to event blocks only:
every physical line is at most 76 characters long *except possibly* the
two unfolded header free-text lines (`X-WR-CALNAME:`/`X-WR-TIMEZONE:`),
which the source never folds and which can exceed any limit. -/
theorem buildICS_structure (events : List Event) (cal tz : List Char)
    (uids : Nat → List Char) (stamp : List Char)
    (hu : ∀ i, '\n' ∉ uids i) (hst : '\n' ∉ stamp) :
    splitNl (unfoldIcs (buildICS events cal tz uids stamp)) =
      icsExpectedLines events cal tz uids stamp ∧
    ∀ l ∈ splitNl (buildICS events cal tz uids stamp),
      l.length ≤ 76 ∨ l.take 13 = strL "X-WR-CALNAME:" ∨
        l.take 14 = strL "X-WR-TIMEZONE:" := by
  set bs := events.enum.map (fun iev => eventLines (uids iev.1) stamp iev.2) with hbs_def
  have hbscond : ∀ ls ∈ bs, ls ≠ [] ∧ ∀ l ∈ ls, '\n' ∉ l ∧ l.head? ≠ some ' ' := by
    intro ls hls
    rw [hbs_def] at hls
    obtain ⟨iev, _, rfl⟩ := List.mem_map.mp hls
    exact eventLines_cond _ _ _ (hu iev.1) hst
  set hdr := [strL "BEGIN:VCALENDAR", strL "VERSION:2.0", strL "CALSCALE:GREGORIAN",
      strL "PRODID:-//GistTools//Workday Excel to iCal//EN"] ++
    (if cal = [] then [] else [strL "X-WR-CALNAME:" ++ icsEscape cal]) ++
    (if tz = [] then [] else [strL "X-WR-TIMEZONE:" ++ icsEscape tz]) with hdr_def
  have hhdr : ∀ l ∈ hdr, '\n' ∉ l ∧ l.head? ≠ some ' ' := by
    intro l hl
    rw [hdr_def] at hl
    simp only [List.append_assoc] at hl
    rcases List.mem_append.mp hl with h | h
    · simp only [List.mem_cons, List.mem_singleton] at h
      rcases h with rfl | rfl | rfl | rfl | h
      · exact ⟨by decide, by decide⟩
      · exact ⟨by decide, by decide⟩
      · exact ⟨by decide, by decide⟩
      · exact ⟨by decide, by decide⟩
      · exact absurd h (List.not_mem_nil l)
    · rcases List.mem_append.mp h with h | h
      · split_ifs at h with h1
        · exact absurd h (List.not_mem_nil l)
        · rw [List.mem_singleton] at h
          subst h
          refine ⟨?_, ?_⟩
          · simp only [List.mem_append]
            rintro (hx | hx)
            · exact absurd hx (by decide)
            · exact newline_not_mem_icsEscape _ hx
          · rw [head?_strL_append "X-WR-CALNAME:" _ 'X' (by decide)]; decide
      · split_ifs at h with h1
        · exact absurd h (List.not_mem_nil l)
        · rw [List.mem_singleton] at h
          subst h
          refine ⟨?_, ?_⟩
          · simp only [List.mem_append]
            rintro (hx | hx)
            · exact absurd hx (by decide)
            · exact newline_not_mem_icsEscape _ hx
          · rw [head?_strL_append "X-WR-TIMEZONE:" _ 'X' (by decide)]; decide
  have hmap : events.enum.map
      (fun iev => foldLines (eventBlock (uids iev.1) stamp iev.2) ++ ['\n']) =
      bs.map (fun ls => foldLines (joinNl ls) ++ ['\n']) := by
    rw [hbs_def, List.map_map]
    exact List.map_congr_left (fun iev _ => by
      simp [Function.comp, eventBlock_eq_joinNl])
  have hdoc : buildICS events cal tz uids stamp =
      (hdr.map (fun l => l ++ ['\n'])).join ++
        ((bs.map (fun ls => foldLines (joinNl ls) ++ ['\n'])).join ++
          (strL "END:VCALENDAR" ++ '\n' :: [])) := by
    rw [buildICS, hmap, hdr_def]
    by_cases hc : cal = [] <;> by_cases htz : tz = [] <;>
      simp [hc, htz, join_cons', List.append_assoc]
  have hendh : (strL "END:VCALENDAR" ++ '\n' :: []).head? ≠ some ' ' := by
    rw [head?_strL_append "END:VCALENDAR" _ 'E' (by decide)]; decide
  constructor
  · rw [hdoc,
      unfold_header hdr _ hhdr (head?_blocks bs _ hbscond hendh),
      unfold_blocks bs _ hbscond hendh,
      unfoldIcs_line_cons (strL "END:VCALENDAR") [] (by decide) (by simp),
      unfoldIcs_nil,
      split_header hdr _ (fun l hl => (hhdr l hl).1),
      split_unfolded_blocks bs _
        (fun ls hls => ⟨(hbscond ls hls).1, fun l hl => ((hbscond ls hls).2 l hl).1⟩),
      splitNl_append_nl _ _ (by decide)]
    rw [icsExpectedLines, hdr_def, hbs_def]
    simp [List.append_assoc, splitNl]
  · rw [hdoc,
      split_header hdr _ (fun l hl => (hhdr l hl).1),
      split_blocks bs _
        (fun ls hls => ⟨(hbscond ls hls).1, fun l hl => ((hbscond ls hls).2 l hl).1⟩),
      splitNl_append_nl _ _ (by decide)]
    intro l hl
    rcases List.mem_append.mp hl with h | h
    · rw [hdr_def] at h
      simp only [List.append_assoc] at h
      rcases List.mem_append.mp h with h | h
      · simp only [List.mem_cons, List.mem_singleton] at h
        rcases h with rfl | rfl | rfl | rfl | h
        · exact Or.inl (by decide)
        · exact Or.inl (by decide)
        · exact Or.inl (by decide)
        · exact Or.inl (by decide)
        · exact absurd h (List.not_mem_nil l)
      · rcases List.mem_append.mp h with h | h
        · split_ifs at h with h1
          · exact absurd h (List.not_mem_nil l)
          · rw [List.mem_singleton] at h
            subst h
            exact Or.inr (Or.inl (take_strL_append "X-WR-CALNAME:" _))
        · split_ifs at h with h1
          · exact absurd h (List.not_mem_nil l)
          · rw [List.mem_singleton] at h
            subst h
            exact Or.inr (Or.inr (take_strL_append "X-WR-TIMEZONE:" _))
    · rcases List.mem_append.mp h with h | h
      · simp only [List.mem_join, List.mem_map] at h
        obtain ⟨phys, ⟨ls, hls, rfl⟩, hmem⟩ := h
        simp only [List.mem_join, List.mem_map] at hmem
        obtain ⟨q, ⟨line, hline, rfl⟩, hq⟩ := hmem
        exact Or.inl (foldLine_length_le line l hq)
      · simp only [List.mem_cons] at h
        rcases h with rfl | h
        · exact Or.inl (by decide)
        · have : l = [] := by
            simpa [splitNl] using h
          exact Or.inl (by simp [this])

/-- C6 witness: the structure equation and line property for one event,
calendar name `"C"`, no timezone hint. -/
theorem buildICS_structure_witness :
    splitNl (unfoldIcs (buildICS [ev0] (strL "C") [] uids0 stamp0)) =
      icsExpectedLines [ev0] (strL "C") [] uids0 stamp0 ∧
    ∀ l ∈ splitNl (buildICS [ev0] (strL "C") [] uids0 stamp0),
      l.length ≤ 76 ∨ l.take 13 = strL "X-WR-CALNAME:" ∨
        l.take 14 = strL "X-WR-TIMEZONE:" :=
  buildICS_structure [ev0] (strL "C") [] uids0 stamp0
    (fun i => by simp [uids0]; decide) (by decide)

/-- C6 counterexample: a 100-character calendar name produces an unfolded
113-character header line, so "every emitted line respects the folding
rule" fails for the header free-text lines. -/
theorem buildICS_header_unfolded_cex :
    ∃ l ∈ splitNl (buildICS [] (List.replicate 100 'A') [] uids0 stamp0),
      76 < l.length := by
  decide

end WorkdayICS
